import Mathlib

/-!
# Verification of the weighted DSU difference-constraint checker

This development embeds the C++ program `src/Graviton/q1.cpp`: a
disjoint-set-union structure with potential differences (`parent` / `diff`
arrays), used to decide whether a set of constraints `x_i - x_j = c` over
integer variables is mutually consistent, for several test cases.

The recursive member function `find` of the C++ code is modelled with an
explicit fuel argument; the fuel supplied by the wrapper `DSU.find` is the
size of the `parent` array, which is shown to be sufficient on every state
the program can actually reach (the parent graph is a forest there).
-/

set_option autoImplicit false

/-- The DSU state: `parent i` is the parent of node `i` in the forest,
`diff i` is the stored potential difference `x_i - x_{parent i}`.
Mirrors `struct DSU { vector<int> parent; vector<ll> diff; }`. -/
structure DSU where
  parent : Array Nat
  diff : Array Int
deriving DecidableEq, Repr

namespace DSU

/-- The constructor `DSU(int n)`: arrays of size `n+1`, `parent = iota`
(every node its own parent), `diff = 0`. -/
def init (n : Nat) : DSU :=
  ⟨Array.range (n + 1), Array.mkArray (n + 1) 0⟩

/-- Read of `parent[i]` (in-range under the program's invariants). -/
def parAt (p : Array Nat) (i : Nat) : Nat := p.getD i 0

/-- Fuel-indexed model of the recursive member function `find`:

    int find(int i) {
      if (parent[i] == i) return i;
      int root = find(parent[i]);
      diff[i] += diff[parent[i]];
      parent[i] = root;
      return root;
    }

Returns the updated state together with the root. -/
def findAux : Nat → DSU → Nat → DSU × Nat
  | 0, s, i => (s, i)
  | fuel + 1, s, i =>
    if parAt s.parent i = i then (s, i)
    else
      let res := findAux fuel s (parAt s.parent i)
      let s1 := res.1
      let d := s1.diff.getD i 0 + s1.diff.getD (parAt s1.parent i) 0
      (⟨s1.parent.setD i res.2, s1.diff.setD i d⟩, res.2)

/-- `find` with the fuel actually sufficient on reachable states. -/
def find (s : DSU) (i : Nat) : DSU × Nat :=
  findAux s.parent.size s i

/-- Model of

    bool unite(int i, int j, int c) {
      int root_i = find(i);
      int root_j = find(j);
      if (root_i != root_j) {
        parent[root_i] = root_j;
        diff[root_i] = diff[j] - diff[i] + c;
      } else {
        if (diff[i] - diff[j] != c) return false;
      }
      return true;
    }

Returns the updated state and the consistency verdict. -/
def unite (s : DSU) (i j : Nat) (c : Int) : DSU × Bool :=
  let r1 := find s i
  let r2 := find r1.1 j
  let s2 := r2.1
  if r1.2 ≠ r2.2 then
    (⟨s2.parent.setD r1.2 r2.2,
      s2.diff.setD r1.2 (s2.diff.getD j 0 - s2.diff.getD i 0 + c)⟩, true)
  else
    if s2.diff.getD i 0 - s2.diff.getD j 0 ≠ c then (s2, false)
    else (s2, true)

end DSU

/-- The constraint loop of `solve`: each triple `(i, j, c)` means
`x_i - x_j = c`.  Once `consistent` is `false`, remaining constraints are
consumed without being applied:

    if (consistent) { if (!dsu.unite(i, j, c)) consistent = false; } -/
def processList : DSU → Bool → List (Nat × Nat × Int) → DSU × Bool
  | s, consistent, [] => (s, consistent)
  | s, consistent, t :: rest =>
    if consistent then
      let r := DSU.unite s t.1 t.2.1 t.2.2
      processList r.1 r.2 rest
    else
      processList s consistent rest

/-- One test case of `solve`: fresh DSU on `n` nodes, feed the `m`
constraints, print `YES` or `NO`. -/
def solveCase (n : Nat) (cs : List (Nat × Nat × Int)) : String :=
  let r := processList (DSU.init n) true cs
  if r.2 then "YES" else "NO"

/-- The `main` loop over test cases: one output line per test case. -/
def runTests (ts : List (Nat × List (Nat × Nat × Int))) : List String :=
  ts.map fun t => solveCase t.1 t.2

/-- `ψ` satisfies every constraint of the list. -/
def SatAll (ψ : Nat → Int) (C : List (Nat × Nat × Int)) : Prop :=
  ∀ t ∈ C, ψ t.1 - ψ t.2.1 = t.2.2

/-- All constraint endpoints are valid 1-indexed node ids. -/
def CValid (N : Nat) (C : List (Nat × Nat × Int)) : Prop :=
  ∀ t ∈ C, 1 ≤ t.1 ∧ t.1 ≤ N ∧ 1 ≤ t.2.1 ∧ t.2.1 ≤ N

instance (ψ : Nat → Int) (C : List (Nat × Nat × Int)) : Decidable (SatAll ψ C) := by
  unfold SatAll
  exact List.decidableBAll _ C

instance (N : Nat) (C : List (Nat × Nat × Int)) : Decidable (CValid N C) := by
  unfold CValid
  exact List.decidableBAll _ C

namespace DSU

/-- `k`-fold iteration of the parent map, purely on the array. -/
def iterP (p : Array Nat) : Nat → Nat → Nat
  | 0, i => i
  | k + 1, i => iterP p k (parAt p i)

/-- Sum of the stored `diff` values along (at most `k` steps of) the
parent path from `i`, stopping at a root. -/
def offTo (s : DSU) : Nat → Nat → Int
  | 0, _ => 0
  | k + 1, i =>
    if parAt s.parent i = i then 0
    else s.diff.getD i 0 + offTo s k (parAt s.parent i)

/-- The root obtained by iterating the parent map `size` times; on
reachable states this is the true fixed point. -/
def rootD (s : DSU) (i : Nat) : Nat := iterP s.parent s.parent.size i

/-- Path sum from `i` all the way to its root (full fuel). -/
def offToRoot (s : DSU) (i : Nat) : Int := offTo s s.parent.size i

end DSU

section ArrayHelpers

variable {α : Type} (a : Array α)

theorem getD_setD_ne (i k : Nat) (v d : α) (h : k ≠ i) :
    (a.setD i v).getD k d = a.getD k d := by
  unfold Array.setD
  split
  · by_cases hk : k < a.size
    · have hk2 : k < (a.set ⟨i, by assumption⟩ v).size := by simpa using hk
      rw [Array.getD, dif_pos hk2, Array.getD, dif_pos hk]
      exact Array.getElem_set_ne a _ v _ (fun hh => h (by simpa using hh.symm))
    · have hk2 : ¬ k < (a.set ⟨i, by assumption⟩ v).size := by simpa using hk
      rw [Array.getD, dif_neg hk2, Array.getD, dif_neg hk]
  · rfl

theorem getD_setD_self (i : Nat) (v d : α) (h : i < a.size) :
    (a.setD i v).getD i d = v := by
  have hsz : i < (a.setD i v).size := by simp [Array.size_setD, h]
  rw [Array.getD, dif_pos hsz]
  exact Array.getElem_setD a i v hsz

theorem getD_range (n i : Nat) (h : i < n) : (Array.range n).getD i 0 = i := by
  have hs : i < (Array.range n).size := by simpa [Array.size_range] using h
  rw [Array.getD, dif_pos hs]
  exact Array.getElem_range _

theorem getD_mkArray (n i : Nat) (v d : α) (h : i < n) :
    (Array.mkArray n v).getD i d = v := by
  have hs : i < (Array.mkArray n v).size := by simpa using h
  rw [Array.getD, dif_pos hs]
  simp

end ArrayHelpers

namespace DSU

theorem init_parent_size (n : Nat) : (init n).parent.size = n + 1 := by
  simp [init, Array.size_range]

theorem init_diff_size (n : Nat) : (init n).diff.size = n + 1 := by
  simp [init]

theorem init_parAt (n i : Nat) (h : i ≤ n) : parAt (init n).parent i = i := by
  unfold parAt init
  exact getD_range (n + 1) i (by omega)

theorem init_diff (n i : Nat) (h : i ≤ n) : (init n).diff.getD i 0 = 0 := by
  unfold init
  exact getD_mkArray (n + 1) i 0 0 (by omega)

/-! ### Pure parent-chain lemmas -/

theorem iterP_succ (p : Array Nat) (k i : Nat) :
    iterP p (k + 1) i = iterP p k (parAt p i) := rfl

theorem iterP_add (p : Array Nat) (a b i : Nat) :
    iterP p (a + b) i = iterP p b (iterP p a i) := by
  induction a generalizing i with
  | zero => simp [iterP]
  | succ a ih =>
    have : a + 1 + b = (a + b) + 1 := by omega
    rw [this, iterP_succ, iterP_succ, ih]

/-- Peeling one step off the far end of the chain. -/
theorem iterP_succ_out (p : Array Nat) (k i : Nat) :
    iterP p (k + 1) i = parAt p (iterP p k i) := by
  rw [iterP_add p k 1 i]; rfl

/-- Once the chain hits a fixed point it stays there. -/
theorem iterP_stable (p : Array Nat) (m i : Nat)
    (hm : parAt p (iterP p m i) = iterP p m i) :
    ∀ t, m ≤ t → iterP p t i = iterP p m i := by
  intro t ht
  obtain ⟨d, rfl⟩ : ∃ d, t = m + d := ⟨t - m, by omega⟩
  induction d with
  | zero => rfl
  | succ d ih =>
    have h1 : m + (d + 1) = (m + d) + 1 := by omega
    rw [h1, iterP_succ_out, ih (by omega), hm]

/-- On the way to the first root, the chain never repeats a node. -/
theorem chain_inj (p : Array Nat) (m i : Nat)
    (hm : parAt p (iterP p m i) = iterP p m i)
    (hmin : ∀ t, t < m → parAt p (iterP p t i) ≠ iterP p t i) :
    ∀ a b, a < b → b ≤ m → iterP p a i ≠ iterP p b i := by
  intro a b hab hbm heq
  have key : iterP p (a + (m - b)) i = iterP p m i := by
    have h1 : iterP p (b + (m - b)) i = iterP p m i := by
      rw [show b + (m - b) = m by omega]
    rw [iterP_add] at h1 ⊢
    rw [heq]; exact h1
  have hroot : parAt p (iterP p (a + (m - b)) i) = iterP p (a + (m - b)) i := by
    rw [key]; exact hm
  exact hmin (a + (m - b)) (by omega) hroot

theorem offTo_succ (s : DSU) (k i : Nat) :
    offTo s (k + 1) i =
      if parAt s.parent i = i then 0
      else s.diff.getD i 0 + offTo s k (parAt s.parent i) := rfl

theorem offTo_of_root (s : DSU) (i : Nat) (hr : parAt s.parent i = i) :
    ∀ K, offTo s K i = 0 := by
  intro K
  cases K with
  | zero => rfl
  | succ K => rw [offTo_succ, if_pos hr]

/-- Past the root, extra fuel does not change the path sum. -/
theorem offTo_stable (s : DSU) :
    ∀ m i, parAt s.parent (iterP s.parent m i) = iterP s.parent m i →
    ∀ K, m ≤ K → offTo s K i = offTo s m i := by
  intro m
  induction m with
  | zero =>
    intro i hm K _
    have hr : parAt s.parent i = i := hm
    rw [offTo_of_root s i hr K, offTo_of_root s i hr 0]
  | succ m ihm =>
    intro i hm K hK
    obtain ⟨d, rfl⟩ : ∃ d, K = (m + 1) + d := ⟨K - (m + 1), by omega⟩
    by_cases hr : parAt s.parent i = i
    · rw [offTo_of_root s i hr, offTo_of_root s i hr]
    · have hm' : parAt s.parent (iterP s.parent m (parAt s.parent i)) =
          iterP s.parent m (parAt s.parent i) := by
        rw [← iterP_succ]; exact hm
      have h1 : m + 1 + d = (m + d) + 1 := by omega
      rw [h1, offTo_succ, if_neg hr, offTo_succ, if_neg hr,
        ihm (parAt s.parent i) hm' (m + d) (by omega)]


/-- Master specification of `findAux`.  Hypotheses: the parent chain from
`i` first reaches a root after exactly `m` steps, all strictly earlier
chain nodes are in bounds in both arrays, and the fuel exceeds `m`.
Conclusions: the returned root is the chain's fixed point, sizes are
preserved, every node off the (pre-root) chain keeps its `parent` and
`diff` entries, and every chain node is repointed to the root with its
`diff` rewritten to the pre-call path sum (plus the root's own `diff`,
which is zero on reachable states). -/
theorem findAux_spec (s : DSU) :
    ∀ (m i fuel : Nat),
    parAt s.parent (iterP s.parent m i) = iterP s.parent m i →
    (∀ t, t < m → parAt s.parent (iterP s.parent t i) ≠ iterP s.parent t i) →
    (∀ t, t < m → iterP s.parent t i < s.parent.size ∧ iterP s.parent t i < s.diff.size) →
    m < fuel →
    (findAux fuel s i).2 = iterP s.parent m i ∧
    (findAux fuel s i).1.parent.size = s.parent.size ∧
    (findAux fuel s i).1.diff.size = s.diff.size ∧
    (∀ k, (∀ t, t < m → iterP s.parent t i ≠ k) →
      (findAux fuel s i).1.parent.getD k 0 = s.parent.getD k 0 ∧
      (findAux fuel s i).1.diff.getD k 0 = s.diff.getD k 0) ∧
    (∀ t, t < m →
      (findAux fuel s i).1.parent.getD (iterP s.parent t i) 0 = iterP s.parent m i ∧
      (findAux fuel s i).1.diff.getD (iterP s.parent t i) 0 =
        offTo s (m - t) (iterP s.parent t i) +
          s.diff.getD (iterP s.parent m i) 0) := by
  intro m
  induction m with
  | zero =>
    intro i fuel hm hmin hsz hfuel
    obtain ⟨f, rfl⟩ : ∃ f, fuel = f + 1 := ⟨fuel - 1, by omega⟩
    have hroot : parAt s.parent i = i := hm
    have hstep : findAux (f + 1) s i = (s, i) := by
      simp only [findAux, if_pos hroot]
    rw [hstep]
    exact ⟨rfl, rfl, rfl, fun k _ => ⟨rfl, rfl⟩, fun t ht => absurd ht (by omega)⟩
  | succ m ih =>
    intro i fuel hm hmin hsz hfuel
    obtain ⟨f, rfl⟩ : ∃ f, fuel = f + 1 := ⟨fuel - 1, by omega⟩
    have hroot : parAt s.parent i ≠ i := hmin 0 (by omega)
    have hm' : parAt s.parent (iterP s.parent m (parAt s.parent i)) =
        iterP s.parent m (parAt s.parent i) := by
      rw [← iterP_succ]; exact hm
    have hmin' : ∀ t, t < m →
        parAt s.parent (iterP s.parent t (parAt s.parent i)) ≠
          iterP s.parent t (parAt s.parent i) := by
      intro t ht
      rw [← iterP_succ]; exact hmin (t + 1) (by omega)
    have hsz' : ∀ t, t < m →
        iterP s.parent t (parAt s.parent i) < s.parent.size ∧
          iterP s.parent t (parAt s.parent i) < s.diff.size := by
      intro t ht
      rw [← iterP_succ]; exact hsz (t + 1) (by omega)
    have hIH := ih (parAt s.parent i) f hm' hmin' hsz' (by omega)
    rcases hq : findAux f s (parAt s.parent i) with ⟨s1, r⟩
    rw [hq] at hIH
    obtain ⟨hres2, hpsz, hdsz, hframe, hchain5⟩ := hIH
    dsimp only at hres2 hpsz hdsz hframe hchain5
    have hstep : findAux (f + 1) s i =
        (⟨s1.parent.setD i r,
          s1.diff.setD i (s1.diff.getD i 0 + s1.diff.getD (parAt s1.parent i) 0)⟩, r) := by
      simp only [findAux, if_neg hroot]
      rw [hq]
    have hnotin : ∀ t, t < m → iterP s.parent t (parAt s.parent i) ≠ i := by
      intro t ht heq
      have := chain_inj s.parent (m + 1) i hm hmin 0 (t + 1) (by omega) (by omega)
      exact this (by rw [iterP_succ]; exact heq.symm)
    have hfrI := hframe i hnotin
    have hpI : parAt s1.parent i = parAt s.parent i := hfrI.1
    have hdI : s1.diff.getD i 0 = s.diff.getD i 0 := hfrI.2
    have hdP : s1.diff.getD (parAt s.parent i) 0 =
        offTo s m (parAt s.parent i) +
          s.diff.getD (iterP s.parent m (parAt s.parent i)) 0 := by
      cases m with
      | zero =>
        have := (hframe (parAt s.parent i) (fun t ht => absurd ht (by omega))).2
        simp only [iterP, offTo]
        rw [this]; ring
      | succ m' =>
        have := (hchain5 0 (by omega)).2
        simpa [iterP] using this
    have hiP : i < s.parent.size := (hsz 0 (by omega)).1
    have hiD : i < s.diff.size := (hsz 0 (by omega)).2
    rw [hstep]
    refine ⟨?_, ?_, ?_, ?_, ?_⟩
    · exact hres2
    · simp [Array.size_setD, hpsz]
    · simp [Array.size_setD, hdsz]
    · intro k hk
      have hki : k ≠ i := fun h => hk 0 (by omega) h.symm
      constructor
      · rw [getD_setD_ne _ _ _ _ _ hki]
        exact (hframe k (fun t ht => by
          rw [← iterP_succ]; exact hk (t + 1) (by omega))).1
      · rw [getD_setD_ne _ _ _ _ _ hki]
        exact (hframe k (fun t ht => by
          rw [← iterP_succ]; exact hk (t + 1) (by omega))).2
    · intro t ht
      cases t with
      | zero =>
        constructor
        · show (s1.parent.setD i r).getD i 0 = iterP s.parent (m + 1) i
          rw [getD_setD_self _ _ _ _ (by rw [hpsz]; exact hiP)]
          rw [hres2, iterP_succ]
        · show (s1.diff.setD i (s1.diff.getD i 0 + s1.diff.getD (parAt s1.parent i) 0)).getD i 0 =
            offTo s (m + 1) i + s.diff.getD (iterP s.parent m (parAt s.parent i)) 0
          rw [getD_setD_self _ _ _ _ (by rw [hdsz]; exact hiD)]
          rw [hpI, hdI, hdP]
          rw [offTo_succ, if_neg hroot]
          ring
      | succ t' =>
        have htm : t' < m := by omega
        have hne : iterP s.parent (t' + 1) i ≠ i := by
          intro heq
          have := chain_inj s.parent (m + 1) i hm hmin 0 (t' + 1) (by omega) (by omega)
          exact this heq.symm
        have h5 := hchain5 t' htm
        constructor
        · show (s1.parent.setD i r).getD (iterP s.parent (t' + 1) i) 0 = _
          rw [getD_setD_ne _ _ _ _ _ hne, iterP_succ]
          rw [h5.1, ← iterP_succ]
        · show (s1.diff.setD i _).getD (iterP s.parent (t' + 1) i) 0 = _
          rw [getD_setD_ne _ _ _ _ _ hne, iterP_succ, h5.2]
          rw [show m - t' = m + 1 - (t' + 1) by omega, ← iterP_succ, ← iterP_succ]

/-! ### Chains stay in range, and reach a root within `N` steps -/

/-- All nodes on the parent chain of a valid node are valid. -/
theorem chain_range (p : Array Nat) (N : Nat)
    (hpr : ∀ x, 1 ≤ x → x ≤ N → 1 ≤ parAt p x ∧ parAt p x ≤ N)
    (i : Nat) (h1 : 1 ≤ i) (h2 : i ≤ N) :
    ∀ t, 1 ≤ iterP p t i ∧ iterP p t i ≤ N := by
  intro t
  induction t with
  | zero => exact ⟨h1, h2⟩
  | succ t ihh =>
    rw [iterP_succ_out]
    exact hpr _ ihh.1 ihh.2

/-- The minimal number of steps to a root, via `Nat.find`. -/
theorem minRoot (p : Array Nat) (i : Nat)
    (hre : ∃ k, parAt p (iterP p k i) = iterP p k i) :
    ∃ m, parAt p (iterP p m i) = iterP p m i ∧
      ∀ t, t < m → parAt p (iterP p t i) ≠ iterP p t i :=
  ⟨Nat.find hre, Nat.find_spec hre, fun t ht => Nat.find_min hre ht⟩

/-- Pigeonhole: a minimal root index is below `N`, because the chain up to
the root is injective and lives in `[1, N]`. -/
theorem minRoot_lt (p : Array Nat) (N i m : Nat)
    (hpr : ∀ x, 1 ≤ x → x ≤ N → 1 ≤ parAt p x ∧ parAt p x ≤ N)
    (h1 : 1 ≤ i) (h2 : i ≤ N)
    (hm : parAt p (iterP p m i) = iterP p m i)
    (hmin : ∀ t, t < m → parAt p (iterP p t i) ≠ iterP p t i) :
    m < N := by
  have hinj : Set.InjOn (fun t => iterP p t i) (Finset.range (m + 1)) := by
    intro a ha b hb hab
    simp only [Finset.coe_range, Set.mem_Iio] at ha hb
    by_contra hne
    rcases Nat.lt_or_ge a b with h | h
    · exact chain_inj p m i hm hmin a b h (by omega) hab
    · have hlt : b < a := by omega
      exact chain_inj p m i hm hmin b a hlt (by omega) hab.symm
  have hmaps : ∀ t ∈ Finset.range (m + 1), iterP p t i ∈ Finset.Icc 1 N := by
    intro t _
    have := chain_range p N hpr i h1 h2 t
    simp only [Finset.mem_Icc]
    exact this
  have hcard := Finset.card_le_card_of_injOn _ hmaps hinj
  simp only [Finset.card_range, Nat.card_Icc] at hcard
  omega

theorem rootD_of_root (s : DSU) (x : Nat) (hx : parAt s.parent x = x) :
    rootD s x = x := by
  have := iterP_stable s.parent 0 x hx s.parent.size (by omega)
  simpa [rootD, iterP] using this

/-- With the minimal root index in hand, `rootD` computes that root. -/
theorem rootD_eq_iter (s : DSU) (i m : Nat)
    (hm : parAt s.parent (iterP s.parent m i) = iterP s.parent m i)
    (hmN : m ≤ s.parent.size) :
    rootD s i = iterP s.parent m i := by
  exact iterP_stable s.parent m i hm s.parent.size hmN

/-- `rootD` of any chain node equals `rootD` of the start. -/
theorem rootD_iter (s : DSU) (N : Nat)
    (hps : s.parent.size = N + 1)
    (hpr : ∀ x, 1 ≤ x → x ≤ N → 1 ≤ parAt s.parent x ∧ parAt s.parent x ≤ N)
    (hre : ∀ x, 1 ≤ x → x ≤ N → ∃ k,
      parAt s.parent (iterP s.parent k x) = iterP s.parent k x)
    (i : Nat) (h1 : 1 ≤ i) (h2 : i ≤ N) :
    ∀ t, rootD s (iterP s.parent t i) = rootD s i := by
  obtain ⟨m, hm, hmin⟩ := minRoot s.parent i (hre i h1 h2)
  have hmN : m < N := minRoot_lt s.parent N i m hpr h1 h2 hm hmin
  intro t
  rcases Nat.lt_or_ge t m with h | h
  · -- chain node before the root: its chain reaches the same root
    have hroott : parAt s.parent (iterP s.parent (m - t) (iterP s.parent t i)) =
        iterP s.parent (m - t) (iterP s.parent t i) := by
      rw [← iterP_add, show t + (m - t) = m by omega]
      exact hm
    have e1 : rootD s (iterP s.parent t i) = iterP s.parent (m - t) (iterP s.parent t i) :=
      rootD_eq_iter s _ _ hroott (by omega)
    have e2 : rootD s i = iterP s.parent m i := rootD_eq_iter s i m hm (by omega)
    rw [e1, e2, ← iterP_add, show t + (m - t) = m by omega]
  · -- at or past the root: the chain is constant there
    have e0 : iterP s.parent t i = iterP s.parent m i := iterP_stable s.parent m i hm t h
    have e2 : rootD s i = iterP s.parent m i := rootD_eq_iter s i m hm (by omega)
    have e3 : rootD s (iterP s.parent m i) = iterP s.parent m i := rootD_of_root s _ hm
    rw [e0, e3, e2]

/-- The root of a valid node is itself a fixed point and a valid node. -/
theorem rootD_spec (s : DSU) (N : Nat)
    (hps : s.parent.size = N + 1)
    (hpr : ∀ x, 1 ≤ x → x ≤ N → 1 ≤ parAt s.parent x ∧ parAt s.parent x ≤ N)
    (hre : ∀ x, 1 ≤ x → x ≤ N → ∃ k,
      parAt s.parent (iterP s.parent k x) = iterP s.parent k x)
    (i : Nat) (h1 : 1 ≤ i) (h2 : i ≤ N) :
    parAt s.parent (rootD s i) = rootD s i ∧ 1 ≤ rootD s i ∧ rootD s i ≤ N := by
  obtain ⟨m, hm, hmin⟩ := minRoot s.parent i (hre i h1 h2)
  have hmN : m < N := minRoot_lt s.parent N i m hpr h1 h2 hm hmin
  have e2 : rootD s i = iterP s.parent m i := rootD_eq_iter s i m hm (by omega)
  refine ⟨by rw [e2]; exact hm, ?_, ?_⟩
  · rw [e2]; exact (chain_range s.parent N hpr i h1 h2 m).1
  · rw [e2]; exact (chain_range s.parent N hpr i h1 h2 m).2

/-- Every stored edge `x → parent x` carries exactly the potential
difference of `ψ`. -/
def EdgeOK (N : Nat) (s : DSU) (ψ : Nat → Int) : Prop :=
  ∀ x, 1 ≤ x → x ≤ N → parAt s.parent x ≠ x →
    s.diff.getD x 0 = ψ x - ψ (parAt s.parent x)

/-- Telescoping: the path sum over `K` non-root steps is the potential
difference to the `K`-th chain node. -/
theorem offTo_eq (s : DSU) (N : Nat) (ψ : Nat → Int) (hE : EdgeOK N s ψ) :
    ∀ K x, (∀ u, u < K → 1 ≤ iterP s.parent u x ∧ iterP s.parent u x ≤ N ∧
        parAt s.parent (iterP s.parent u x) ≠ iterP s.parent u x) →
      offTo s K x = ψ x - ψ (iterP s.parent K x) := by
  intro K
  induction K with
  | zero => intro x _; simp [offTo, iterP]
  | succ K ihK =>
    intro x hchain
    have h0 := hchain 0 (by omega)
    simp only [iterP] at h0
    rw [offTo_succ, if_neg h0.2.2]
    have hx : s.diff.getD x 0 = ψ x - ψ (parAt s.parent x) := hE x h0.1 h0.2.1 h0.2.2
    have hrec := ihK (parAt s.parent x) (fun u hu => by
      rw [← iterP_succ]
      exact hchain (u + 1) (by omega))
    rw [hx, hrec, ← iterP_succ]
    ring

/-- Everything `unite` and the driver need to know about one `find` call,
on a state whose parent graph is an in-range forest with zero diffs at the
roots. -/
theorem find_master (N : Nat) (s : DSU)
    (hps : s.parent.size = N + 1) (hds : s.diff.size = N + 1)
    (hpr : ∀ x, 1 ≤ x → x ≤ N → 1 ≤ parAt s.parent x ∧ parAt s.parent x ≤ N)
    (hre : ∀ x, 1 ≤ x → x ≤ N → ∃ k,
      parAt s.parent (iterP s.parent k x) = iterP s.parent k x)
    (hrd : ∀ x, 1 ≤ x → x ≤ N → parAt s.parent x = x → s.diff.getD x 0 = 0)
    (i : Nat) (h1 : 1 ≤ i) (h2 : i ≤ N) :
    (find s i).2 = rootD s i ∧
    (find s i).1.parent.size = N + 1 ∧
    (find s i).1.diff.size = N + 1 ∧
    (∀ x, 1 ≤ x → x ≤ N →
      1 ≤ parAt (find s i).1.parent x ∧ parAt (find s i).1.parent x ≤ N) ∧
    (∀ x, 1 ≤ x → x ≤ N → ∃ k,
      parAt (find s i).1.parent (iterP (find s i).1.parent k x) =
        iterP (find s i).1.parent k x) ∧
    (∀ x, 1 ≤ x → x ≤ N →
      (parAt (find s i).1.parent x = x ↔ parAt s.parent x = x)) ∧
    (∀ x, 1 ≤ x → x ≤ N → rootD (find s i).1 x = rootD s x) ∧
    (∀ x, 1 ≤ x → x ≤ N → parAt (find s i).1.parent x = x →
      (find s i).1.diff.getD x 0 = 0) ∧
    (∀ ψ, EdgeOK N s ψ → EdgeOK N (find s i).1 ψ) ∧
    parAt (find s i).1.parent i = rootD s i ∧
    (∀ x, 1 ≤ x → x ≤ N → parAt s.parent x = rootD s x →
      parAt (find s i).1.parent x = rootD s x) ∧
    (∀ ψ, EdgeOK N s ψ →
      (find s i).1.diff.getD i 0 = ψ i - ψ (rootD s i)) := by
  obtain ⟨m, hm, hmin⟩ := minRoot s.parent i (hre i h1 h2)
  have hmN : m < N := minRoot_lt s.parent N i m hpr h1 h2 hm hmin
  have hrange := chain_range s.parent N hpr i h1 h2
  have hsz : ∀ t, t < m →
      iterP s.parent t i < s.parent.size ∧ iterP s.parent t i < s.diff.size := by
    intro t _
    constructor
    · rw [hps]; exact Nat.lt_succ_of_le (hrange t).2
    · rw [hds]; exact Nat.lt_succ_of_le (hrange t).2
  have hspec := findAux_spec s m i s.parent.size hm hmin hsz (by rw [hps]; omega)
  obtain ⟨hA2, hApsz, hAdsz, hAframe, hAchain⟩ := hspec
  have hfind : find s i = findAux s.parent.size s i := rfl
  rw [← hfind] at hA2 hApsz hAdsz hAframe hAchain
  have hr_eq : (find s i).2 = rootD s i := by
    rw [hA2, rootD_eq_iter s i m hm (by omega)]
  -- the root and its basic properties
  have hroot_r : parAt s.parent (iterP s.parent m i) = iterP s.parent m i := hm
  have hr_range : 1 ≤ iterP s.parent m i ∧ iterP s.parent m i ≤ N := hrange m
  -- roots are never touched (all touched nodes are strictly pre-root chain nodes)
  have huntouched_root : ∀ x, parAt s.parent x = x →
      (find s i).1.parent.getD x 0 = s.parent.getD x 0 ∧
      (find s i).1.diff.getD x 0 = s.diff.getD x 0 := by
    intro x hx
    refine hAframe x (fun t ht heq => ?_)
    exact hmin t ht (by rw [heq]; exact hx)
  -- characterization of the new parent entry of every valid node
  have hpar_char : ∀ x,
      (∃ t, t < m ∧ iterP s.parent t i = x) ∨
      ((find s i).1.parent.getD x 0 = s.parent.getD x 0 ∧
       (find s i).1.diff.getD x 0 = s.diff.getD x 0) := by
    intro x
    by_cases hx : ∃ t, t < m ∧ iterP s.parent t i = x
    · exact Or.inl hx
    · push_neg at hx
      exact Or.inr (hAframe x (fun t ht => hx t ht))
  have hpar_touched : ∀ t, t < m →
      (find s i).1.parent.getD (iterP s.parent t i) 0 = iterP s.parent m i ∧
      (find s i).1.diff.getD (iterP s.parent t i) 0 =
        offTo s (m - t) (iterP s.parent t i) + s.diff.getD (iterP s.parent m i) 0 :=
    hAchain
  have hdiff_r : s.diff.getD (iterP s.parent m i) 0 = 0 :=
    hrd _ hr_range.1 hr_range.2 hroot_r
  -- touched chain nodes are on i's chain, hence share i's root
  have hroot_of_chain : ∀ t, rootD s (iterP s.parent t i) = rootD s i :=
    rootD_iter s N hps hpr hre i h1 h2
  have hrD : rootD s i = iterP s.parent m i := rootD_eq_iter s i m hm (by omega)
  -- new prange
  have hpr' : ∀ x, 1 ≤ x → x ≤ N →
      1 ≤ parAt (find s i).1.parent x ∧ parAt (find s i).1.parent x ≤ N := by
    intro x hx1 hx2
    rcases hpar_char x with ⟨t, ht, hteq⟩ | hun
    · have := (hpar_touched t ht).1
      rw [hteq] at this
      unfold parAt
      rw [this]
      exact hr_range
    · unfold parAt
      rw [hun.1]
      exact hpr x hx1 hx2
  -- the key transfer: the new chain of every valid node reaches the old root
  have htrans : ∀ M x, 1 ≤ x → x ≤ N →
      parAt s.parent (iterP s.parent M x) = iterP s.parent M x →
      (∀ t, t < M → parAt s.parent (iterP s.parent t x) ≠ iterP s.parent t x) →
      ∃ k, k ≤ M ∧
        parAt (find s i).1.parent (iterP (find s i).1.parent k x) =
          iterP (find s i).1.parent k x ∧
        iterP (find s i).1.parent k x = rootD s x := by
    intro M
    induction M using Nat.strong_induction_on with
    | _ M ihM =>
      intro x hx1 hx2 hMr hMmin
      cases M with
      | zero =>
        have hxroot : parAt s.parent x = x := hMr
        refine ⟨0, Nat.le_refl 0, ?_, ?_⟩
        · show parAt (find s i).1.parent x = x
          unfold parAt
          rw [(huntouched_root x hxroot).1]
          exact hxroot
        · show x = rootD s x
          rw [rootD_of_root s x hxroot]
      | succ M =>
        have hxnr : parAt s.parent x ≠ x := by
          have := hMmin 0 (by omega)
          simpa [iterP] using this
        rcases hpar_char x with ⟨t, ht, hteq⟩ | hun
        · -- x is a touched chain node: one new step lands on the old root
          refine ⟨1, by omega, ?_, ?_⟩
          · have hx1' : iterP (find s i).1.parent 1 x = iterP s.parent m i := by
              show parAt (find s i).1.parent x = iterP s.parent m i
              unfold parAt
              rw [← hteq]
              exact (hpar_touched t ht).1
            rw [hx1']
            unfold parAt
            rw [(huntouched_root _ hroot_r).1]
            exact hroot_r
          · have hx1' : iterP (find s i).1.parent 1 x = iterP s.parent m i := by
              show parAt (find s i).1.parent x = iterP s.parent m i
              unfold parAt
              rw [← hteq]
              exact (hpar_touched t ht).1
            rw [hx1', ← hrD, ← hteq, hroot_of_chain]
        · -- x is untouched: step to the old parent and use the IH
          have hy1 : 1 ≤ parAt s.parent x := (hpr x hx1 hx2).1
          have hy2 : parAt s.parent x ≤ N := (hpr x hx1 hx2).2
          have hyr : parAt s.parent (iterP s.parent M (parAt s.parent x)) =
              iterP s.parent M (parAt s.parent x) := by
            rw [← iterP_succ]; exact hMr
          have hymin : ∀ t, t < M →
              parAt s.parent (iterP s.parent t (parAt s.parent x)) ≠
                iterP s.parent t (parAt s.parent x) := by
            intro t ht
            rw [← iterP_succ]
            exact hMmin (t + 1) (by omega)
          obtain ⟨k, hkM, hkr, hkval⟩ := ihM M (by omega) (parAt s.parent x) hy1 hy2 hyr hymin
          refine ⟨k + 1, by omega, ?_, ?_⟩
          · have hstep : iterP (find s i).1.parent (k + 1) x =
                iterP (find s i).1.parent k (parAt s.parent x) := by
              rw [iterP_succ]
              congr 1
              unfold parAt
              rw [hun.1]
            rw [hstep]
            exact hkr
          · have hstep : iterP (find s i).1.parent (k + 1) x =
                iterP (find s i).1.parent k (parAt s.parent x) := by
              rw [iterP_succ]
              congr 1
              unfold parAt
              rw [hun.1]
            rw [hstep, hkval]
            have : rootD s (iterP s.parent 1 x) = rootD s x :=
              rootD_iter s N hps hpr hre x hx1 hx2 1
            simpa [iterP] using this
  -- new reach and new rootD
  have hre' : ∀ x, 1 ≤ x → x ≤ N → ∃ k,
      parAt (find s i).1.parent (iterP (find s i).1.parent k x) =
        iterP (find s i).1.parent k x := by
    intro x hx1 hx2
    obtain ⟨M, hMr, hMmin⟩ := minRoot s.parent x (hre x hx1 hx2)
    obtain ⟨k, _, hkr, _⟩ := htrans M x hx1 hx2 hMr hMmin
    exact ⟨k, hkr⟩
  have hrootD' : ∀ x, 1 ≤ x → x ≤ N → rootD (find s i).1 x = rootD s x := by
    intro x hx1 hx2
    obtain ⟨M, hMr, hMmin⟩ := minRoot s.parent x (hre x hx1 hx2)
    have hMN : M < N := minRoot_lt s.parent N x M hpr hx1 hx2 hMr hMmin
    obtain ⟨k, hkM, hkr, hkval⟩ := htrans M x hx1 hx2 hMr hMmin
    have : rootD (find s i).1 x = iterP (find s i).1.parent k x := by
      apply rootD_eq_iter _ _ _ hkr
      rw [hApsz, hps]; omega
    rw [this, hkval]
  exact ⟨hr_eq, by rw [hApsz, hps], by rw [hAdsz, hds], hpr', hre',
    by
      -- roots are preserved
      intro x hx1 hx2
      constructor
      · intro hx'
        by_contra hxs
        rcases hpar_char x with ⟨t, ht, hteq⟩ | hun
        · have := (hpar_touched t ht).1
          rw [hteq] at this
          unfold parAt at hx'
          rw [this] at hx'
          have hne := chain_inj s.parent m i hm hmin t m ht (Nat.le_refl m)
          rw [hteq, hx'] at hne
          exact hne rfl
        · unfold parAt at hx'
          rw [hun.1] at hx'
          exact hxs hx'
      · intro hxs
        unfold parAt
        rw [(huntouched_root x hxs).1]
        exact hxs,
    hrootD',
    by
      -- root diffs stay zero
      intro x hx1 hx2 hx'
      have hxs : parAt s.parent x = x := by
        by_contra hxs
        rcases hpar_char x with ⟨t, ht, hteq⟩ | hun
        · have := (hpar_touched t ht).1
          rw [hteq] at this
          unfold parAt at hx'
          rw [this] at hx'
          have hne := chain_inj s.parent m i hm hmin t m ht (Nat.le_refl m)
          rw [hteq, hx'] at hne
          exact hne rfl
        · unfold parAt at hx'
          rw [hun.1] at hx'
          exact hxs hx'
      rw [(huntouched_root x hxs).2]
      exact hrd x hx1 hx2 hxs,
    by
      -- EdgeOK is preserved
      intro ψ hE x hx1 hx2 hx'
      rcases hpar_char x with ⟨t, ht, hteq⟩ | hun
      · have hch := hpar_touched t ht
        rw [hteq] at hch
        have hoff : offTo s (m - t) x = ψ x - ψ (iterP s.parent (m - t) x) := by
          apply offTo_eq s N ψ hE (m - t) x
          intro u hu
          have hiter : iterP s.parent u x = iterP s.parent (t + u) i := by
            rw [← hteq, ← iterP_add]
          rw [hiter]
          exact ⟨(hrange (t + u)).1, (hrange (t + u)).2, hmin (t + u) (by omega)⟩
        have hiterm : iterP s.parent (m - t) x = iterP s.parent m i := by
          rw [← hteq, ← iterP_add, show t + (m - t) = m by omega]
        rw [hch.2, hdiff_r, hoff, hiterm]
        unfold parAt
        rw [hch.1]
        ring
      · rw [hun.2]
        unfold parAt
        rw [hun.1]
        apply hE x hx1 hx2
        unfold parAt at hx'
        rw [hun.1] at hx'
        exact hx',
    by
      -- i itself ends up compressed
      by_cases hir : parAt s.parent i = i
      · unfold parAt
        rw [(huntouched_root i hir).1, rootD_of_root s i hir]
        exact hir
      · have hm0 : 0 < m := by
          rcases Nat.eq_zero_or_pos m with h0 | h
          · subst h0; exact absurd hm hir
          · exact h
        have := (hpar_touched 0 hm0).1
        unfold parAt
        rw [show iterP s.parent 0 i = i from rfl] at this
        rw [this, hrD],
    by
      -- already-compressed nodes stay compressed
      intro x hx1 hx2 hxc
      rcases hpar_char x with ⟨t, ht, hteq⟩ | hun
      · have := (hpar_touched t ht).1
        rw [hteq] at this
        unfold parAt
        rw [this, ← hrD, ← hroot_of_chain t, hteq]
      · unfold parAt
        rw [hun.1]
        exact hxc,
    by
      -- the new diff of i is the potential difference to its root
      intro ψ hE
      by_cases hir : parAt s.parent i = i
      · rw [(huntouched_root i hir).2, rootD_of_root s i hir,
          hrd i h1 h2 hir]
        ring
      · have hm0 : 0 < m := by
          rcases Nat.eq_zero_or_pos m with h0 | h
          · subst h0; exact absurd hm hir
          · exact h
        have hch := hpar_touched 0 hm0
        rw [show iterP s.parent 0 i = i from rfl] at hch
        have hoff : offTo s (m - 0) i = ψ i - ψ (iterP s.parent (m - 0) i) := by
          apply offTo_eq s N ψ hE (m - 0) i
          intro u hu
          exact ⟨(hrange u).1, (hrange u).2, hmin u (by omega)⟩
        rw [hch.2, hdiff_r, hoff, hrD]
        rw [show m - 0 = m from rfl]
        ring⟩

/-- Sum of the magnitudes of all constraint values. -/
def totalWeight (C : List (Nat × Nat × Int)) : Int :=
  (C.map (fun t => |t.2.2|)).sum

/-- Sum of the magnitudes of the constraints whose endpoints currently lie
in the component rooted at `r`. -/
def compWeight (s : DSU) (C : List (Nat × Nat × Int)) (r : Nat) : Int :=
  (C.map (fun t => if DSU.rootD s t.1 = r then |t.2.2| else 0)).sum

/-- The pairwise offset bound: within one component, the relative value of
any two nodes is bounded by the component's constraint weight. -/
def BInv (N : Nat) (C : List (Nat × Nat × Int)) (s : DSU) : Prop :=
  ∀ a b, 1 ≤ a → a ≤ N → 1 ≤ b → b ≤ N → DSU.rootD s a = DSU.rootD s b →
    |DSU.offToRoot s a - DSU.offToRoot s b| ≤ compWeight s C (DSU.rootD s a)

theorem totalWeight_nonneg (C : List (Nat × Nat × Int)) : 0 ≤ totalWeight C := by
  unfold totalWeight
  induction C with
  | nil => simp
  | cons t rest ih =>
    simp only [List.map_cons, List.sum_cons]
    have := abs_nonneg t.2.2
    omega

theorem compWeight_nonneg (s : DSU) (C : List (Nat × Nat × Int)) (r : Nat) :
    0 ≤ compWeight s C r := by
  unfold compWeight
  induction C with
  | nil => simp
  | cons t rest ih =>
    simp only [List.map_cons, List.sum_cons]
    have := abs_nonneg t.2.2
    by_cases hb : DSU.rootD s t.1 = r
    · rw [if_pos hb]; omega
    · rw [if_neg hb]; omega

theorem compWeight_le_total (s : DSU) (C : List (Nat × Nat × Int)) (r : Nat) :
    compWeight s C r ≤ totalWeight C := by
  unfold compWeight totalWeight
  induction C with
  | nil => simp
  | cons t rest ih =>
    simp only [List.map_cons, List.sum_cons]
    have := abs_nonneg t.2.2
    by_cases hb : DSU.rootD s t.1 = r
    · rw [if_pos hb]; omega
    · rw [if_neg hb]; omega

/-- `compWeight` only depends on the roots of the constraint endpoints. -/
theorem compWeight_congr (s s2 : DSU) (C : List (Nat × Nat × Int)) (r : Nat)
    (h : ∀ t ∈ C, DSU.rootD s2 t.1 = DSU.rootD s t.1) :
    compWeight s2 C r = compWeight s C r := by
  unfold compWeight
  induction C with
  | nil => rfl
  | cons t rest ih =>
    simp only [List.map_cons, List.sum_cons]
    rw [h t (by simp), ih (fun u hu => h u (by simp [hu]))]

theorem compWeight_append (s : DSU) (C1 C2 : List (Nat × Nat × Int)) (r : Nat) :
    compWeight s (C1 ++ C2) r = compWeight s C1 r + compWeight s C2 r := by
  unfold compWeight
  rw [List.map_append, List.sum_append]

/-- Splitting the merged component's weight: after linking `ri` beneath
`rj`, the constraints now rooted at `rj` are exactly those previously
rooted at `ri` or at `rj`. -/
theorem compWeight_link (s2 s3 : DSU) (C : List (Nat × Nat × Int)) (ri rj : Nat)
    (hne : ri ≠ rj)
    (htr : ∀ t ∈ C, DSU.rootD s3 t.1 =
      if DSU.rootD s2 t.1 = ri then rj else DSU.rootD s2 t.1) :
    compWeight s3 C rj = compWeight s2 C ri + compWeight s2 C rj := by
  unfold compWeight
  induction C with
  | nil => simp
  | cons t rest ih =>
    simp only [List.map_cons, List.sum_cons]
    have hh := htr t (by simp)
    have hrest := ih (fun u hu => htr u (by simp [hu]))
    by_cases hb : DSU.rootD s2 t.1 = ri
    · rw [if_pos hb] at hh
      rw [hh, if_pos rfl, if_pos hb, if_neg (by rw [hb]; exact hne)]
      omega
    · rw [if_neg hb] at hh
      rw [hh, if_neg hb]
      by_cases hb2 : DSU.rootD s2 t.1 = rj
      · rw [if_pos hb2]
        omega
      · rw [if_neg hb2]
        omega

/-- An untouched component's weight does not change under the link. -/
theorem compWeight_link_other (s2 s3 : DSU) (C : List (Nat × Nat × Int))
    (ri rj r : Nat) (hr1 : r ≠ ri) (hr2 : r ≠ rj)
    (htr : ∀ t ∈ C, DSU.rootD s3 t.1 =
      if DSU.rootD s2 t.1 = ri then rj else DSU.rootD s2 t.1) :
    compWeight s3 C r = compWeight s2 C r := by
  unfold compWeight
  induction C with
  | nil => rfl
  | cons t rest ih =>
    simp only [List.map_cons, List.sum_cons]
    have hh := htr t (by simp)
    have hrest := ih (fun u hu => htr u (by simp [hu]))
    rw [hrest]
    by_cases hb : DSU.rootD s2 t.1 = ri
    · rw [if_pos hb] at hh
      rw [hh, if_neg (fun h => hr2 h.symm), if_neg (by rw [hb]; exact fun h => hr1 h.symm)]
    · rw [if_neg hb] at hh
      rw [hh]

/-- The path sum to the root is the potential difference to the root, for
any potential compatible with the stored edges. -/
theorem offToRoot_eq_phi (N : Nat) (s : DSU)
    (hps : s.parent.size = N + 1)
    (hpr : ∀ x, 1 ≤ x → x ≤ N → 1 ≤ parAt s.parent x ∧ parAt s.parent x ≤ N)
    (hre : ∀ x, 1 ≤ x → x ≤ N → ∃ k,
      parAt s.parent (iterP s.parent k x) = iterP s.parent k x)
    (φ : Nat → Int) (hE : EdgeOK N s φ)
    (i : Nat) (h1 : 1 ≤ i) (h2 : i ≤ N) :
    offToRoot s i = φ i - φ (rootD s i) := by
  obtain ⟨m, hm, hmin⟩ := minRoot s.parent i (hre i h1 h2)
  have hmN : m < N := minRoot_lt s.parent N i m hpr h1 h2 hm hmin
  have hrange := chain_range s.parent N hpr i h1 h2
  have hsum : offTo s m i = φ i - φ (iterP s.parent m i) := by
    apply offTo_eq s N φ hE m i
    intro u hu
    exact ⟨(hrange u).1, (hrange u).2, hmin u hu⟩
  have hstab : offTo s s.parent.size i = offTo s m i :=
    offTo_stable s m i hm s.parent.size (by rw [hps]; omega)
  have hroot : rootD s i = iterP s.parent m i :=
    rootD_eq_iter s i m hm (by rw [hps]; omega)
  unfold offToRoot
  rw [hstab, hsum, hroot]

theorem offToRoot_root (s : DSU) (r : Nat) (hr : parAt s.parent r = r) :
    offToRoot s r = 0 := offTo_of_root s r hr s.parent.size

/-- The master invariant tying a DSU state to the list `C` of constraints
successfully united so far. -/
structure Inv (N : Nat) (C : List (Nat × Nat × Int)) (s : DSU) : Prop where
  psize : s.parent.size = N + 1
  dsize : s.diff.size = N + 1
  prange : ∀ x, 1 ≤ x → x ≤ N → 1 ≤ parAt s.parent x ∧ parAt s.parent x ≤ N
  reach : ∀ x, 1 ≤ x → x ≤ N → ∃ k,
    parAt s.parent (iterP s.parent k x) = iterP s.parent k x
  rdiff : ∀ x, 1 ≤ x → x ≤ N → parAt s.parent x = x → s.diff.getD x 0 = 0
  entail : ∀ ψ, SatAll ψ C → EdgeOK N s ψ
  hexist : ∃ φ, SatAll φ C ∧ EdgeOK N s φ
  conn : ∀ t ∈ C, rootD s t.1 = rootD s t.2.1
  cvalid : CValid N C
  bound : BInv N C s

theorem satAll_append (ψ : Nat → Int) (C1 C2 : List (Nat × Nat × Int)) :
    SatAll ψ (C1 ++ C2) ↔ SatAll ψ C1 ∧ SatAll ψ C2 := by
  simp [SatAll, List.mem_append, or_imp, forall_and]

theorem satAll_nil (ψ : Nat → Int) : SatAll ψ [] := by
  intro t ht
  cases ht

theorem inv_init (N : Nat) : Inv N [] (init N) := by
  refine ⟨init_parent_size N, init_diff_size N, ?_, ?_, ?_, ?_, ?_, ?_, ?_, ?_⟩
  · intro x hx1 hx2
    rw [init_parAt N x hx2]
    exact ⟨hx1, hx2⟩
  · intro x _ hx2
    exact ⟨0, by rw [show iterP (init N).parent 0 x = x from rfl, init_parAt N x hx2]⟩
  · intro x _ hx2 _
    exact init_diff N x hx2
  · intro ψ _ x _ hx2 hxnr
    exact absurd (init_parAt N x hx2) hxnr
  · exact ⟨fun _ => 0, satAll_nil _, fun x _ hx2 hxnr =>
      absurd (init_parAt N x hx2) hxnr⟩
  · intro t ht
    cases ht
  · intro t ht
    cases ht
  · intro a b ha1 ha2 hb1 hb2 _
    have hza : offToRoot (init N) a = 0 := offToRoot_root _ _ (init_parAt N a ha2)
    have hzb : offToRoot (init N) b = 0 := offToRoot_root _ _ (init_parAt N b hb2)
    rw [hza, hzb]
    simp [compWeight]

/-- `find` preserves the invariant (the processed constraint list does not
change). -/
theorem inv_find (N : Nat) (C : List (Nat × Nat × Int)) (s : DSU)
    (hInv : Inv N C s) (i : Nat) (h1 : 1 ≤ i) (h2 : i ≤ N) :
    Inv N C (find s i).1 := by
  obtain ⟨_, hps', hds', hpr', hre', _, hrootD', hrd', hEdge', _, _, _⟩ :=
    find_master N s hInv.psize hInv.dsize hInv.prange hInv.reach hInv.rdiff i h1 h2
  refine ⟨hps', hds', hpr', hre', hrd', ?_, ?_, ?_, hInv.cvalid, ?_⟩
  · intro ψ hψ
    exact hEdge' ψ (hInv.entail ψ hψ)
  · obtain ⟨φ, hφS, hφE⟩ := hInv.hexist
    exact ⟨φ, hφS, hEdge' φ hφE⟩
  · intro t ht
    have hv := hInv.cvalid t ht
    rw [hrootD' t.1 hv.1 hv.2.1, hrootD' t.2.1 hv.2.2.1 hv.2.2.2]
    exact hInv.conn t ht
  · -- the pairwise offset bound survives compression
    intro a b ha1 ha2 hb1 hb2 hrr
    obtain ⟨φ, hφS, hφE⟩ := hInv.hexist
    have hφE' := hEdge' φ hφE
    have hra : rootD (find s i).1 a = rootD s a := hrootD' a ha1 ha2
    have hrb : rootD (find s i).1 b = rootD s b := hrootD' b hb1 hb2
    have hrr0 : rootD s a = rootD s b := by rw [← hra, ← hrb, hrr]
    have hoa : offToRoot (find s i).1 a = φ a - φ (rootD (find s i).1 a) :=
      offToRoot_eq_phi N _ hps' hpr' hre' φ hφE' a ha1 ha2
    have hob : offToRoot (find s i).1 b = φ b - φ (rootD (find s i).1 b) :=
      offToRoot_eq_phi N _ hps' hpr' hre' φ hφE' b hb1 hb2
    have hoa0 : offToRoot s a = φ a - φ (rootD s a) :=
      offToRoot_eq_phi N s hInv.psize hInv.prange hInv.reach φ hφE a ha1 ha2
    have hob0 : offToRoot s b = φ b - φ (rootD s b) :=
      offToRoot_eq_phi N s hInv.psize hInv.prange hInv.reach φ hφE b hb1 hb2
    have hcongr : ∀ t ∈ C, rootD (find s i).1 t.1 = rootD s t.1 :=
      fun t ht => hrootD' t.1 (hInv.cvalid t ht).1 (hInv.cvalid t ht).2.1
    rw [hoa, hob, compWeight_congr s (find s i).1 C _ hcongr, hra, hrb]
    have hsb := hInv.bound a b ha1 ha2 hb1 hb2 hrr0
    rw [hoa0, hob0] at hsb
    exact hsb

theorem satAll_single (ψ : Nat → Int) (i j : Nat) (c : Int) :
    SatAll ψ [(i, j, c)] ↔ ψ i - ψ j = c := by
  simp [SatAll]

/-- Root transfer across linking root `ri` beneath a different root `rj`:
every valid node still reaches a root, and its new root is `rj` exactly
when its old root was `ri`. -/
theorem link_root (N : Nat) (s2 s3 : DSU)
    (hps : s2.parent.size = N + 1)
    (hpr : ∀ x, 1 ≤ x → x ≤ N → 1 ≤ parAt s2.parent x ∧ parAt s2.parent x ≤ N)
    (hre : ∀ x, 1 ≤ x → x ≤ N → ∃ k,
      parAt s2.parent (iterP s2.parent k x) = iterP s2.parent k x)
    (ri rj : Nat) (hri1 : 1 ≤ ri) (hri2 : ri ≤ N) (hrj1 : 1 ≤ rj) (hrj2 : rj ≤ N)
    (hriroot : parAt s2.parent ri = ri)
    (hrjroot : parAt s2.parent rj = rj)
    (hne : ri ≠ rj)
    (hs3 : s3.parent = s2.parent.setD ri rj) :
    ∀ x, 1 ≤ x → x ≤ N →
      (∃ k, parAt s3.parent (iterP s3.parent k x) = iterP s3.parent k x) ∧
      rootD s3 x = if rootD s2 x = ri then rj else rootD s2 x := by
  have hsz3 : s3.parent.size = N + 1 := by
    rw [hs3, Array.size_setD, hps]
  have hp3_ri : parAt s3.parent ri = rj := by
    rw [hs3]
    unfold parAt
    exact getD_setD_self _ _ _ _ (by rw [hps]; omega)
  have hp3_ne : ∀ x, x ≠ ri → parAt s3.parent x = parAt s2.parent x := by
    intro x hx
    rw [hs3]
    unfold parAt
    exact getD_setD_ne _ _ _ _ _ hx
  have hp3_rj : parAt s3.parent rj = rj := by
    rw [hp3_ne rj (fun h => hne h.symm)]
    exact hrjroot
  -- main transfer, by strong induction on the old minimal root index
  have htr : ∀ M x, 1 ≤ x → x ≤ N →
      parAt s2.parent (iterP s2.parent M x) = iterP s2.parent M x →
      (∀ t, t < M → parAt s2.parent (iterP s2.parent t x) ≠ iterP s2.parent t x) →
      ∃ k, k ≤ M + 1 ∧
        parAt s3.parent (iterP s3.parent k x) = iterP s3.parent k x ∧
        iterP s3.parent k x = (if rootD s2 x = ri then rj else rootD s2 x) := by
    intro M
    induction M using Nat.strong_induction_on with
    | _ M ihM =>
      intro x hx1 hx2 hMr hMmin
      cases M with
      | zero =>
        have hxroot : parAt s2.parent x = x := hMr
        have hrx : rootD s2 x = x := rootD_of_root s2 x hxroot
        by_cases hxri : x = ri
        · subst hxri
          refine ⟨1, by omega, ?_, ?_⟩
          · have h1' : iterP s3.parent 1 x = rj := by
              show parAt s3.parent x = rj
              exact hp3_ri
            rw [h1', hp3_rj]
          · have h1' : iterP s3.parent 1 x = rj := by
              show parAt s3.parent x = rj
              exact hp3_ri
            rw [h1', hrx, if_pos rfl]
        · refine ⟨0, by omega, ?_, ?_⟩
          · show parAt s3.parent x = x
            rw [hp3_ne x hxri]
            exact hxroot
          · show x = if rootD s2 x = ri then rj else rootD s2 x
            rw [hrx, if_neg hxri]
      | succ M =>
        have hxnr : parAt s2.parent x ≠ x := by
          have := hMmin 0 (by omega)
          simpa [iterP] using this
        have hxri : x ≠ ri := by
          intro h
          rw [h] at hxnr
          exact hxnr hriroot
        have hy1 : 1 ≤ parAt s2.parent x := (hpr x hx1 hx2).1
        have hy2 : parAt s2.parent x ≤ N := (hpr x hx1 hx2).2
        have hyr : parAt s2.parent (iterP s2.parent M (parAt s2.parent x)) =
            iterP s2.parent M (parAt s2.parent x) := by
          rw [← iterP_succ]; exact hMr
        have hymin : ∀ t, t < M →
            parAt s2.parent (iterP s2.parent t (parAt s2.parent x)) ≠
              iterP s2.parent t (parAt s2.parent x) := by
          intro t ht
          rw [← iterP_succ]
          exact hMmin (t + 1) (by omega)
        obtain ⟨k, hkM, hkr, hkval⟩ := ihM M (by omega) (parAt s2.parent x) hy1 hy2 hyr hymin
        have hstep : iterP s3.parent (k + 1) x =
            iterP s3.parent k (parAt s2.parent x) := by
          rw [iterP_succ, hp3_ne x hxri]
        refine ⟨k + 1, by omega, ?_, ?_⟩
        · rw [hstep]; exact hkr
        · rw [hstep, hkval]
          have hsame : rootD s2 (parAt s2.parent x) = rootD s2 x := by
            have := rootD_iter s2 N hps hpr hre x hx1 hx2 1
            simpa [iterP] using this
          rw [hsame]
  intro x hx1 hx2
  obtain ⟨M, hMr, hMmin⟩ := minRoot s2.parent x (hre x hx1 hx2)
  have hMN : M < N := minRoot_lt s2.parent N x M hpr hx1 hx2 hMr hMmin
  obtain ⟨k, hkM, hkr, hkval⟩ := htr M x hx1 hx2 hMr hMmin
  refine ⟨⟨k, hkr⟩, ?_⟩
  have : rootD s3 x = iterP s3.parent k x := by
    apply rootD_eq_iter _ _ _ hkr
    rw [hsz3]; omega
  rw [this, hkval]

/-- Preservation of the pairwise offset bound when root `ri` is linked
beneath root `rj`: the merged component's weight picks up both old weights
plus the new constraint's magnitude, which dominates every new relative
value. -/
theorem binv_link (N : Nat) (C : List (Nat × Nat × Int)) (s2 s3 : DSU)
    (hI2 : Inv N C s2) (i j ri rj : Nat) (c : Int)
    (hi1 : 1 ≤ i) (hi2 : i ≤ N) (hj1 : 1 ≤ j) (hj2 : j ≤ N)
    (hrirj : ri ≠ rj)
    (hrootD_s2_i : rootD s2 i = ri) (hrootD_s2_j : rootD s2 j = rj)
    (hφ3 : ∃ φ3, SatAll φ3 (C ++ [(i, j, c)]) ∧ EdgeOK N s3 φ3)
    (hps3 : s3.parent.size = N + 1)
    (hpr3 : ∀ x, 1 ≤ x → x ≤ N → 1 ≤ parAt s3.parent x ∧ parAt s3.parent x ≤ N)
    (hre3 : ∀ x, 1 ≤ x → x ≤ N → ∃ k,
      parAt s3.parent (iterP s3.parent k x) = iterP s3.parent k x)
    (hlink2 : ∀ x, 1 ≤ x → x ≤ N →
      rootD s3 x = if rootD s2 x = ri then rj else rootD s2 x) :
    BInv N (C ++ [(i, j, c)]) s3 := by
  intro a b ha1 ha2 hb1 hb2 hrr
  obtain ⟨φ', hφ'S, hφ'E3⟩ := hφ3
  have hsplit := (satAll_append φ' C [(i, j, c)]).1 hφ'S
  have hφ'C : SatAll φ' C := hsplit.1
  have hφ'new : φ' i - φ' j = c := (satAll_single φ' i j c).1 hsplit.2
  have hφ'E2 : EdgeOK N s2 φ' := hI2.entail φ' hφ'C
  have ho3 : ∀ x, 1 ≤ x → x ≤ N → offToRoot s3 x = φ' x - φ' (rootD s3 x) :=
    fun x hx1 hx2 => offToRoot_eq_phi N s3 hps3 hpr3 hre3 φ' hφ'E3 x hx1 hx2
  have ho2 : ∀ x, 1 ≤ x → x ≤ N → offToRoot s2 x = φ' x - φ' (rootD s2 x) :=
    fun x hx1 hx2 =>
      offToRoot_eq_phi N s2 hI2.psize hI2.prange hI2.reach φ' hφ'E2 x hx1 hx2
  have hpair2 : ∀ x y, 1 ≤ x → x ≤ N → 1 ≤ y → y ≤ N →
      rootD s2 x = rootD s2 y → |φ' x - φ' y| ≤ compWeight s2 C (rootD s2 x) := by
    intro x y hx1 hx2 hy1 hy2 hxy
    have hb0 := hI2.bound x y hx1 hx2 hy1 hy2 hxy
    rw [ho2 x hx1 hx2, ho2 y hy1 hy2] at hb0
    have hc0 : (φ' x - φ' (rootD s2 x)) - (φ' y - φ' (rootD s2 y)) = φ' x - φ' y := by
      rw [hxy]; ring
    rwa [hc0] at hb0
  have htrC : ∀ t ∈ C, rootD s3 t.1 =
      if rootD s2 t.1 = ri then rj else rootD s2 t.1 :=
    fun t ht => hlink2 t.1 (hI2.cvalid t ht).1 (hI2.cvalid t ht).2.1
  have hWlink : compWeight s3 C rj = compWeight s2 C ri + compWeight s2 C rj :=
    compWeight_link s2 s3 C ri rj hrirj htrC
  have hWnew : compWeight s3 [(i, j, c)] rj = |c| := by
    unfold compWeight
    simp only [List.map_cons, List.map_nil, List.sum_cons, List.sum_nil]
    rw [if_pos]
    · ring
    · show rootD s3 i = rj
      rw [hlink2 i hi1 hi2, hrootD_s2_i, if_pos rfl]
  have hW3 : compWeight s3 (C ++ [(i, j, c)]) rj =
      compWeight s2 C ri + compWeight s2 C rj + |c| := by
    rw [compWeight_append, hWlink, hWnew]
  have hta := hlink2 a ha1 ha2
  have htb := hlink2 b hb1 hb2
  rw [ho3 a ha1 ha2, ho3 b hb1 hb2]
  have hcancel : (φ' a - φ' (rootD s3 a)) - (φ' b - φ' (rootD s3 b)) =
      φ' a - φ' b := by
    rw [hrr]; ring
  rw [hcancel]
  by_cases haa : rootD s2 a = ri
  · by_cases hbb : rootD s2 b = ri
    · have hpp := hpair2 a b ha1 ha2 hb1 hb2 (by rw [haa, hbb])
      rw [haa] at hpp
      have hroota : rootD s3 a = rj := by rw [hta, if_pos haa]
      rw [hroota, hW3]
      have h1 := compWeight_nonneg s2 C rj
      have h2 := abs_nonneg c
      linarith [hpp]
    · have hroota : rootD s3 a = rj := by rw [hta, if_pos haa]
      have hrootb : rootD s3 b = rootD s2 b := by rw [htb, if_neg hbb]
      have hbrj : rootD s2 b = rj := by rw [← hrootb, ← hrr, hroota]
      have hd : φ' a - φ' b = (φ' a - φ' i) + c + (φ' j - φ' b) := by
        rw [← hφ'new]; ring
      rw [hd]
      have h1 : |φ' a - φ' i| ≤ compWeight s2 C ri := by
        have := hpair2 a i ha1 ha2 hi1 hi2 (by rw [haa, hrootD_s2_i])
        rwa [haa] at this
      have h2 : |φ' j - φ' b| ≤ compWeight s2 C rj := by
        have := hpair2 j b hj1 hj2 hb1 hb2 (by rw [hrootD_s2_j, hbrj])
        rwa [hrootD_s2_j] at this
      have h3 : |(φ' a - φ' i) + c + (φ' j - φ' b)| ≤
          |φ' a - φ' i| + |c| + |φ' j - φ' b| := abs_add_three _ _ _
      rw [hroota, hW3]
      linarith [h1, h2, h3]
  · by_cases hbb : rootD s2 b = ri
    · have hrootb : rootD s3 b = rj := by rw [htb, if_pos hbb]
      have hroota : rootD s3 a = rootD s2 a := by rw [hta, if_neg haa]
      have harj : rootD s2 a = rj := by rw [← hroota, hrr, hrootb]
      have hd : φ' a - φ' b = (φ' a - φ' j) + -c + (φ' i - φ' b) := by
        rw [← hφ'new]; ring
      rw [hd]
      have h1 : |φ' a - φ' j| ≤ compWeight s2 C rj := by
        have := hpair2 a j ha1 ha2 hj1 hj2 (by rw [harj, hrootD_s2_j])
        rwa [harj] at this
      have h2 : |φ' i - φ' b| ≤ compWeight s2 C ri := by
        have := hpair2 i b hi1 hi2 hb1 hb2 (by rw [hrootD_s2_i, hbb])
        rwa [hrootD_s2_i] at this
      have h3 : |(φ' a - φ' j) + -c + (φ' i - φ' b)| ≤
          |φ' a - φ' j| + |-c| + |φ' i - φ' b| := abs_add_three _ _ _
      rw [abs_neg] at h3
      rw [hroota, harj, hW3]
      linarith [h1, h2, h3]
    · have hroota : rootD s3 a = rootD s2 a := by rw [hta, if_neg haa]
      have hrootb : rootD s3 b = rootD s2 b := by rw [htb, if_neg hbb]
      have hab2 : rootD s2 a = rootD s2 b := by rw [← hroota, ← hrootb, hrr]
      have hpp := hpair2 a b ha1 ha2 hb1 hb2 hab2
      rw [hroota]
      by_cases hRj : rootD s2 a = rj
      · rw [hRj, hW3]
        rw [hRj] at hpp
        have h1 := compWeight_nonneg s2 C ri
        have h2 := abs_nonneg c
        linarith [hpp]
      · have hother : compWeight s3 C (rootD s2 a) = compWeight s2 C (rootD s2 a) :=
          compWeight_link_other s2 s3 C ri rj (rootD s2 a) haa hRj htrC
        have happ : compWeight s3 (C ++ [(i, j, c)]) (rootD s2 a) =
            compWeight s3 C (rootD s2 a) + compWeight s3 [(i, j, c)] (rootD s2 a) :=
          compWeight_append s3 C _ _
        have hnn : 0 ≤ compWeight s3 [(i, j, c)] (rootD s2 a) :=
          compWeight_nonneg _ _ _
        rw [happ, hother]
        linarith [hpp, hnn]

/-- The full correctness of one `unite` call on an invariant state: on
`true` the constraint joins the processed list with the invariant intact;
on `false` the state is only the two finds' compression and the extended
constraint list is unsatisfiable. -/
theorem unite_master (N : Nat) (C : List (Nat × Nat × Int)) (s : DSU)
    (hInv : Inv N C s) (i j : Nat) (c : Int)
    (hi1 : 1 ≤ i) (hi2 : i ≤ N) (hj1 : 1 ≤ j) (hj2 : j ≤ N) :
    ((unite s i j c).2 = true → Inv N (C ++ [(i, j, c)]) (unite s i j c).1) ∧
    ((unite s i j c).2 = false →
      Inv N C (unite s i j c).1 ∧ ∀ ψ, ¬ SatAll ψ (C ++ [(i, j, c)])) := by
  have hF1 := find_master N s hInv.psize hInv.dsize hInv.prange hInv.reach hInv.rdiff i hi1 hi2
  have hI1 := inv_find N C s hInv i hi1 hi2
  rcases hq1 : find s i with ⟨s1, ri⟩
  rw [hq1] at hF1 hI1
  dsimp only at hF1
  obtain ⟨hri_val, _, _, _, _, _, hrootD1, _, _, hcomp1, hstab1, _⟩ := hF1
  have hF2 := find_master N s1 hI1.psize hI1.dsize hI1.prange hI1.reach hI1.rdiff j hj1 hj2
  have hI2 := inv_find N C s1 hI1 j hj1 hj2
  rcases hq2 : find s1 j with ⟨s2, rj⟩
  rw [hq2] at hF2 hI2
  dsimp only at hF2
  obtain ⟨hrj_val, _, _, _, _, _, hrootD2, _, _, hcomp2, hstab2, _⟩ := hF2
  -- the two roots are valid root nodes of s2
  have hriS := rootD_spec s N hInv.psize hInv.prange hInv.reach i hi1 hi2
  have hri1 : 1 ≤ ri := by rw [hri_val]; exact hriS.2.1
  have hri2 : ri ≤ N := by rw [hri_val]; exact hriS.2.2
  have hrjS := rootD_spec s1 N hI1.psize hI1.prange hI1.reach j hj1 hj2
  have hrj1 : 1 ≤ rj := by rw [hrj_val]; exact hrjS.2.1
  have hrj2 : rj ≤ N := by rw [hrj_val]; exact hrjS.2.2
  have hriroot_s : parAt s.parent ri = ri := by rw [hri_val]; exact hriS.1
  have hri_rootD_s : rootD s ri = ri := rootD_of_root s ri hriroot_s
  have hriroot1 : parAt s1.parent ri = ri := by
    have := hstab1 ri hri1 hri2 (by rw [hri_rootD_s]; exact hriroot_s)
    rw [hri_rootD_s] at this
    exact this
  have hri_rootD1 : rootD s1 ri = ri := rootD_of_root s1 ri hriroot1
  have hriroot2 : parAt s2.parent ri = ri := by
    have := hstab2 ri hri1 hri2 (by rw [hri_rootD1]; exact hriroot1)
    rw [hri_rootD1] at this
    exact this
  have hrjroot1 : parAt s1.parent rj = rj := by rw [hrj_val]; exact hrjS.1
  have hrj_rootD1 : rootD s1 rj = rj := rootD_of_root s1 rj hrjroot1
  have hrjroot2 : parAt s2.parent rj = rj := by
    have := hstab2 rj hrj1 hrj2 (by rw [hrj_rootD1]; exact hrjroot1)
    rw [hrj_rootD1] at this
    exact this
  -- i and j are compressed straight to their roots in s2
  have hcomp_i1 : parAt s1.parent i = ri := by rw [hri_val]; exact hcomp1
  have hcomp_i2 : parAt s2.parent i = ri := by
    have hh : rootD s1 i = ri := by rw [hrootD1 i hi1 hi2, ← hri_val]
    have := hstab2 i hi1 hi2 (by rw [hh]; exact hcomp_i1)
    rw [hh] at this
    exact this
  have hcomp_j2 : parAt s2.parent j = rj := by rw [hrj_val]; exact hcomp2
  have hrootD_s2_i : rootD s2 i = ri := by
    rw [hrootD2 i hi1 hi2, hrootD1 i hi1 hi2, ← hri_val]
  have hrootD_s2_j : rootD s2 j = rj := by rw [hrootD2 j hj1 hj2, ← hrj_val]
  have hrootD_s2_ri : rootD s2 ri = ri := rootD_of_root s2 ri hriroot2
  have hrootD_s2_rj : rootD s2 rj = rj := rootD_of_root s2 rj hrjroot2
  -- the post-find diffs of i and j are determined by any compatible potential
  have hdi : ∀ ψ, EdgeOK N s2 ψ → s2.diff.getD i 0 = ψ i - ψ ri := by
    intro ψ hE
    by_cases hii : i = ri
    · rw [← hii] at hriroot2 ⊢
      rw [hI2.rdiff i hi1 hi2 hriroot2]
      ring
    · have := hE i hi1 hi2 (by rw [hcomp_i2]; exact fun h => hii h.symm)
      rw [hcomp_i2] at this
      exact this
  have hdj : ∀ ψ, EdgeOK N s2 ψ → s2.diff.getD j 0 = ψ j - ψ rj := by
    intro ψ hE
    by_cases hjj : j = rj
    · rw [← hjj] at hrjroot2 ⊢
      rw [hI2.rdiff j hj1 hj2 hrjroot2]
      ring
    · have := hE j hj1 hj2 (by rw [hcomp_j2]; exact fun h => hjj h.symm)
      rw [hcomp_j2] at this
      exact this
  have hun : unite s i j c =
      (if ri ≠ rj then
        (⟨s2.parent.setD ri rj,
          s2.diff.setD ri (s2.diff.getD j 0 - s2.diff.getD i 0 + c)⟩, true)
      else if s2.diff.getD i 0 - s2.diff.getD j 0 ≠ c then (s2, false)
        else (s2, true)) := by
    simp only [unite]
    rw [hq1]
    dsimp only
    rw [hq2]
  by_cases hrirj : ri = rj
  · -- the two finds return the same root
    rw [hun, if_neg (show ¬ri ≠ rj from fun h => h hrirj)]
    by_cases hc : s2.diff.getD i 0 - s2.diff.getD j 0 = c
    · rw [if_neg (not_not_intro hc)]
      constructor
      · intro _
        dsimp only
        refine ⟨hI2.psize, hI2.dsize, hI2.prange, hI2.reach, hI2.rdiff, ?_, ?_, ?_, ?_, ?_⟩
        · intro ψ hψ
          exact hI2.entail ψ ((satAll_append ψ C _).1 hψ).1
        · obtain ⟨φ, hφS, hφE⟩ := hI2.hexist
          refine ⟨φ, ?_, hφE⟩
          rw [satAll_append]
          refine ⟨hφS, (satAll_single φ i j c).2 ?_⟩
          have h1 := hdi φ hφE
          have h2 := hdj φ hφE
          rw [hrirj] at h1
          linarith [hc, h1, h2]
        · intro t ht
          rcases List.mem_append.1 ht with h | h
          · exact hI2.conn t h
          · simp only [List.mem_singleton] at h
            subst h
            dsimp only
            rw [hrootD_s2_i, hrootD_s2_j, hrirj]
        · intro t ht
          rcases List.mem_append.1 ht with h | h
          · exact hInv.cvalid t h
          · simp only [List.mem_singleton] at h
            subst h
            exact ⟨hi1, hi2, hj1, hj2⟩
        · intro a b ha1 ha2 hb1 hb2 hrr
          have hb0 := hI2.bound a b ha1 ha2 hb1 hb2 hrr
          have happ := compWeight_append s2 C [(i, j, c)] (rootD s2 a)
          have hnn := compWeight_nonneg s2 [(i, j, c)] (rootD s2 a)
          rw [happ]
          linarith [hb0, hnn]
      · intro hfalse
        exact absurd hfalse (by simp)
    · rw [if_pos hc]
      constructor
      · intro htrue
        exact absurd htrue (by simp)
      · intro _
        dsimp only
        refine ⟨hI2, ?_⟩
        intro ψ hψ
        rw [satAll_append] at hψ
        obtain ⟨hψC, hψnew⟩ := hψ
        rw [satAll_single] at hψnew
        have hE := hI2.entail ψ hψC
        have h1 := hdi ψ hE
        have h2 := hdj ψ hE
        rw [hrirj] at h1
        exact hc (by linarith [h1, h2, hψnew])
  · -- distinct roots: link ri beneath rj
    rw [hun, if_pos (show ri ≠ rj from hrirj)]
    constructor
    swap
    · intro hfalse
      exact absurd hfalse (by simp)
    intro _
    dsimp only
    have hp3_ri : parAt (s2.parent.setD ri rj) ri = rj := by
      unfold parAt
      exact getD_setD_self _ _ _ _ (by rw [hI2.psize]; omega)
    have hp3_ne : ∀ x, x ≠ ri →
        parAt (s2.parent.setD ri rj) x = parAt s2.parent x := by
      intro x hx
      unfold parAt
      exact getD_setD_ne _ _ _ _ _ hx
    have hd3_ri : (s2.diff.setD ri (s2.diff.getD j 0 - s2.diff.getD i 0 + c)).getD ri 0 =
        s2.diff.getD j 0 - s2.diff.getD i 0 + c :=
      getD_setD_self _ _ _ _ (by rw [hI2.dsize]; omega)
    have hd3_ne : ∀ x, x ≠ ri →
        (s2.diff.setD ri (s2.diff.getD j 0 - s2.diff.getD i 0 + c)).getD x 0 =
          s2.diff.getD x 0 := by
      intro x hx
      exact getD_setD_ne _ _ _ _ _ hx
    have hlink := link_root N s2
      ⟨s2.parent.setD ri rj, s2.diff.setD ri (s2.diff.getD j 0 - s2.diff.getD i 0 + c)⟩
      hI2.psize hI2.prange hI2.reach ri rj hri1 hri2 hrj1 hrj2
      hriroot2 hrjroot2 hrirj rfl
    have hsame2 : ∀ x, 1 ≤ x → x ≤ N →
        rootD s2 (parAt s2.parent x) = rootD s2 x := by
      intro x hx1 hx2
      have := rootD_iter s2 N hI2.psize hI2.prange hI2.reach x hx1 hx2 1
      simpa [iterP] using this
    have hpr3 : ∀ x, 1 ≤ x → x ≤ N →
        1 ≤ parAt (s2.parent.setD ri rj) x ∧ parAt (s2.parent.setD ri rj) x ≤ N := by
      intro x hx1 hx2
      by_cases hx : x = ri
      · subst hx
        rw [show parAt (s2.parent.setD x rj) x = rj from hp3_ri]
        exact ⟨hrj1, hrj2⟩
      · rw [hp3_ne x hx]
        exact hI2.prange x hx1 hx2
    have hφ3 : ∃ φ3, SatAll φ3 (C ++ [(i, j, c)]) ∧
        EdgeOK N ⟨s2.parent.setD ri rj,
          s2.diff.setD ri (s2.diff.getD j 0 - s2.diff.getD i 0 + c)⟩ φ3 := by
      obtain ⟨φ2, hφ2S, hφ2E⟩ := hI2.hexist
      refine ⟨fun k => if rootD s2 k = ri then φ2 k + (c - (φ2 i - φ2 j)) else φ2 k,
        ?_, ?_⟩
      · rw [satAll_append]
        constructor
        · intro t ht
          have hconn := hI2.conn t ht
          have hold := hφ2S t ht
          dsimp only
          by_cases hb : rootD s2 t.1 = ri
          · rw [if_pos hb, if_pos (hconn.symm.trans hb)]
            linarith [hold]
          · rw [if_neg hb, if_neg (fun h => hb (hconn.trans h))]
            exact hold
        · rw [satAll_single]
          simp only [if_pos hrootD_s2_i,
            if_neg (show ¬rootD s2 j = ri from by
              rw [hrootD_s2_j]; exact fun h => hrirj h.symm)]
          ring
      · intro x hx1 hx2 hxnr
        by_cases hx : x = ri
        · subst hx
          show (s2.diff.setD x (s2.diff.getD j 0 - s2.diff.getD i 0 + c)).getD x 0 = _
          rw [show parAt (s2.parent.setD x rj) x = rj from hp3_ri]
          rw [show (s2.diff.setD x (s2.diff.getD j 0 - s2.diff.getD i 0 + c)).getD x 0 =
            s2.diff.getD j 0 - s2.diff.getD i 0 + c from hd3_ri]
          simp only [if_pos (show rootD s2 x = x from rootD_of_root s2 x hriroot2),
            if_neg (show ¬rootD s2 rj = x from by
              rw [hrootD_s2_rj]; exact fun h => hrirj h.symm)]
          have h1 := hdi φ2 hφ2E
          have h2 := hdj φ2 hφ2E
          linarith [h1, h2]
        · show (s2.diff.setD ri _).getD x 0 = _
          rw [hd3_ne x hx, hp3_ne x hx]
          have hxnr2 : parAt s2.parent x ≠ x := by
            rw [← hp3_ne x hx]
            exact hxnr
          have hedge := hφ2E x hx1 hx2 hxnr2
          have hsame := hsame2 x hx1 hx2
          by_cases hb : rootD s2 x = ri
          · simp only [if_pos hb, if_pos (hsame.trans hb)]
            linarith [hedge]
          · simp only [if_neg hb, if_neg (fun h => hb ((hsame.symm).trans h))]
            exact hedge
    refine ⟨?_, ?_, ?_, ?_, ?_, ?_, ?_, ?_, ?_, ?_⟩
    · show (s2.parent.setD ri rj).size = N + 1
      rw [Array.size_setD, hI2.psize]
    · show (s2.diff.setD ri _).size = N + 1
      rw [Array.size_setD, hI2.dsize]
    · exact hpr3
    · intro x hx1 hx2
      exact (hlink x hx1 hx2).1
    · intro x hx1 hx2 hxroot
      have hxri : x ≠ ri := by
        intro h
        subst h
        have : rj = x := hp3_ri.symm.trans hxroot
        exact hrirj this.symm
      rw [hd3_ne x hxri]
      apply hI2.rdiff x hx1 hx2
      rw [← hp3_ne x hxri]
      exact hxroot
    · -- entailment for the extended list
      intro ψ hψ
      rw [satAll_append] at hψ
      obtain ⟨hψC, hψnew⟩ := hψ
      rw [satAll_single] at hψnew
      have hE2 := hI2.entail ψ hψC
      intro x hx1 hx2 hxnr
      by_cases hx : x = ri
      · subst hx
        show (s2.diff.setD x (s2.diff.getD j 0 - s2.diff.getD i 0 + c)).getD x 0 =
          ψ x - ψ (parAt (s2.parent.setD x rj) x)
        rw [show parAt (s2.parent.setD x rj) x = rj from hp3_ri]
        rw [show (s2.diff.setD x (s2.diff.getD j 0 - s2.diff.getD i 0 + c)).getD x 0 =
          s2.diff.getD j 0 - s2.diff.getD i 0 + c from hd3_ri]
        have h1 := hdi ψ hE2
        have h2 := hdj ψ hE2
        linarith [h1, h2, hψnew]
      · show (s2.diff.setD ri _).getD x 0 = ψ x - ψ (parAt (s2.parent.setD ri rj) x)
        rw [hd3_ne x hx, hp3_ne x hx]
        apply hE2 x hx1 hx2
        rw [← hp3_ne x hx]
        exact hxnr
    · -- a satisfying potential for the extended list
      exact hφ3
    · intro t ht
      rcases List.mem_append.1 ht with h | h
      · have hv := hInv.cvalid t h
        rw [(hlink t.1 hv.1 hv.2.1).2, (hlink t.2.1 hv.2.2.1 hv.2.2.2).2,
          hI2.conn t h]
      · simp only [List.mem_singleton] at h
        subst h
        dsimp only
        rw [(hlink i hi1 hi2).2, (hlink j hj1 hj2).2, hrootD_s2_i, hrootD_s2_j]
        rw [if_pos rfl, if_neg (fun h => hrirj h.symm)]
    · intro t ht
      rcases List.mem_append.1 ht with h | h
      · exact hInv.cvalid t h
      · simp only [List.mem_singleton] at h
        subst h
        exact ⟨hi1, hi2, hj1, hj2⟩
    · -- the pairwise offset bound for the linked state
      exact binv_link N C s2 _ hI2 i j ri rj c hi1 hi2 hj1 hj2 hrirj
        hrootD_s2_i hrootD_s2_j hφ3
        (by show (s2.parent.setD ri rj).size = N + 1
            rw [Array.size_setD, hI2.psize])
        hpr3
        (fun x hx1 hx2 => (hlink x hx1 hx2).1)
        (fun x hx1 hx2 => (hlink x hx1 hx2).2)

end DSU

/-- Once `consistent` is `false`, the remaining constraints are consumed
without touching the structure, and the verdict stays `false`. -/
theorem processList_false (cs : List (Nat × Nat × Int)) (s : DSU) :
    processList s false cs = (s, false) := by
  induction cs with
  | nil => rfl
  | cons t rest ih => simpa [processList] using ih

/-- Processing a concatenation processes the first part and continues from
its resulting state and verdict. -/
theorem processList_append (s : DSU) (b : Bool) (cs1 cs2 : List (Nat × Nat × Int)) :
    processList s b (cs1 ++ cs2) =
      processList (processList s b cs1).1 (processList s b cs1).2 cs2 := by
  induction cs1 generalizing s b with
  | nil => rfl
  | cons t rest ih =>
    cases b with
    | true => simp [processList, ih]
    | false => simp [processList, ih]

/-- Driver invariant: processing a valid constraint list from an invariant
state either extends the invariant to the whole list (verdict `true`) or
witnesses unsatisfiability of the accumulated constraints (verdict `false`). -/
theorem process_master (N : Nat) :
    ∀ (cs C0 : List (Nat × Nat × Int)) (s : DSU),
    CValid N cs → DSU.Inv N C0 s →
    ((processList s true cs).2 = true →
      DSU.Inv N (C0 ++ cs) (processList s true cs).1) ∧
    ((processList s true cs).2 = false → ∀ ψ, ¬ SatAll ψ (C0 ++ cs)) := by
  intro cs
  induction cs with
  | nil =>
    intro C0 s _ hInv
    constructor
    · intro _
      simpa using hInv
    · intro h
      simp [processList] at h
  | cons t rest ih =>
    intro C0 s hv hInv
    have hvt := hv t (by simp)
    have hvrest : CValid N rest := fun u hu => hv u (by simp [hu])
    have hstep : processList s true (t :: rest) =
        processList (DSU.unite s t.1 t.2.1 t.2.2).1 (DSU.unite s t.1 t.2.1 t.2.2).2 rest := by
      simp [processList]
    have hum := DSU.unite_master N C0 s hInv t.1 t.2.1 t.2.2
      hvt.1 hvt.2.1 hvt.2.2.1 hvt.2.2.2
    rcases hu : DSU.unite s t.1 t.2.1 t.2.2 with ⟨s1, b⟩
    rw [hu] at hstep hum
    dsimp only at hstep hum
    have hte : ((t.1, t.2.1, t.2.2) : Nat × Nat × Int) = t := rfl
    cases b with
    | true =>
      have hInv1 : DSU.Inv N (C0 ++ [t]) s1 := by
        have := hum.1 rfl
        rwa [hte] at this
      have hih := ih (C0 ++ [t]) s1 hvrest hInv1
      rw [hstep]
      constructor
      · intro htrue
        have := hih.1 htrue
        rwa [List.append_assoc, List.singleton_append] at this
      · intro hfalse
        intro ψ hψ
        apply hih.2 hfalse ψ
        rwa [List.append_assoc, List.singleton_append]
    | false =>
      have hunsat : ∀ ψ, ¬ SatAll ψ (C0 ++ [t]) := by
        have := hum.2 rfl
        rw [hte] at this
        exact this.2
      rw [hstep, processList_false]
      constructor
      · intro htrue
        exact absurd htrue (by simp)
      · intro _ ψ hψ
        apply hunsat ψ
        intro u hu'
        apply hψ
        rcases List.mem_append.1 hu' with h | h
        · exact List.mem_append.2 (Or.inl h)
        · simp only [List.mem_singleton] at h
          subst h
          exact List.mem_append.2 (Or.inr (by simp))

namespace DSU

/-- States reachable from a fresh DSU by completed `find` and `unite`
operations on valid node ids, together with the list of constraints
successfully united so far. -/
inductive Reach (N : Nat) : DSU → List (Nat × Nat × Int) → Prop where
  | init : Reach N (init N) []
  | find (s : DSU) (C : List (Nat × Nat × Int)) (i : Nat) :
      Reach N s C → 1 ≤ i → i ≤ N → Reach N (DSU.find s i).1 C
  | uniteTrue (s : DSU) (C : List (Nat × Nat × Int)) (i j : Nat) (c : Int) :
      Reach N s C → 1 ≤ i → i ≤ N → 1 ≤ j → j ≤ N →
      (DSU.unite s i j c).2 = true →
      Reach N (DSU.unite s i j c).1 (C ++ [(i, j, c)])
  | uniteFalse (s : DSU) (C : List (Nat × Nat × Int)) (i j : Nat) (c : Int) :
      Reach N s C → 1 ≤ i → i ≤ N → 1 ≤ j → j ≤ N →
      (DSU.unite s i j c).2 = false →
      Reach N (DSU.unite s i j c).1 C

/-- Every reachable state satisfies the master invariant. -/
theorem reach_inv (N : Nat) (s : DSU) (C : List (Nat × Nat × Int))
    (h : Reach N s C) : Inv N C s := by
  induction h with
  | init => exact inv_init N
  | find s C i _ hi1 hi2 ih => exact inv_find N C s ih i hi1 hi2
  | uniteTrue s C i j c _ hi1 hi2 hj1 hj2 htrue ih =>
    exact (unite_master N C s ih i j c hi1 hi2 hj1 hj2).1 htrue
  | uniteFalse s C i j c _ hi1 hi2 hj1 hj2 hfalse ih =>
    exact ((unite_master N C s ih i j c hi1 hi2 hj1 hj2).2 hfalse).1

end DSU


theorem getD_eq_getElem {α : Type} (a : Array α) (i : Nat) (d : α)
    (h : i < a.size) : a.getD i d = a[i] := by
  rw [Array.getD, dif_pos h]
  rfl

/-- Writing back the value already stored leaves the array unchanged. -/
theorem setD_getD_self_eq {α : Type} (a : Array α) (i : Nat) (d : α)
    (h : i < a.size) : a.setD i (a.getD i d) = a := by
  apply Array.ext
  · rw [Array.size_setD]
  · intro k hk1 hk2
    by_cases hik : k = i
    · subst hik
      rw [← getD_eq_getElem _ _ d hk1, ← getD_eq_getElem _ _ d hk2]
      exact getD_setD_self a k (a.getD k d) d hk2
    · rw [← getD_eq_getElem _ _ d hk1, ← getD_eq_getElem _ _ d hk2]
      exact getD_setD_ne a i k (a.getD i d) d hik

/-- **C2.** After every completed operation (any reachable state), the path
sum of stored offsets from a valid node `i` to its root equals the
difference `x_i - x_root` forced by every assignment satisfying the
constraints united so far, provided those constraints are consistent (a
satisfying `ψ` exists). -/
theorem c2_offset_invariant (N : Nat) (s : DSU) (C : List (Nat × Nat × Int))
    (h : DSU.Reach N s C) (ψ : Nat → Int) (hψ : SatAll ψ C)
    (i : Nat) (h1 : 1 ≤ i) (h2 : i ≤ N) :
    DSU.offToRoot s i = ψ i - ψ (DSU.rootD s i) := by
  have hInv := DSU.reach_inv N s C h
  obtain ⟨m, hm, hmin⟩ := DSU.minRoot s.parent i (hInv.reach i h1 h2)
  have hmN : m < N := DSU.minRoot_lt s.parent N i m hInv.prange h1 h2 hm hmin
  have hE := hInv.entail ψ hψ
  have hrange := DSU.chain_range s.parent N hInv.prange i h1 h2
  have hsum : DSU.offTo s m i = ψ i - ψ (DSU.iterP s.parent m i) := by
    apply DSU.offTo_eq s N ψ hE m i
    intro u hu
    exact ⟨(hrange u).1, (hrange u).2, hmin u hu⟩
  have hstab : DSU.offTo s s.parent.size i = DSU.offTo s m i :=
    DSU.offTo_stable s m i hm s.parent.size (by rw [hInv.psize]; omega)
  have hroot : DSU.rootD s i = DSU.iterP s.parent m i :=
    DSU.rootD_eq_iter s i m hm (by rw [hInv.psize]; omega)
  unfold DSU.offToRoot
  rw [hstab, hsum, hroot]

/-- **C9.** On every reachable state the parent graph is a forest: from any
valid node the parent chain reaches a fixed point within fewer than `N`
steps (so `find` always terminates), and `find` returns exactly that fixed
point. -/
theorem c9_find_terminates_forest (N : Nat) (s : DSU) (C : List (Nat × Nat × Int))
    (h : DSU.Reach N s C) (i : Nat) (h1 : 1 ≤ i) (h2 : i ≤ N) :
    ∃ m, m < N ∧
      DSU.parAt s.parent (DSU.iterP s.parent m i) = DSU.iterP s.parent m i ∧
      (DSU.find s i).2 = DSU.iterP s.parent m i := by
  have hInv := DSU.reach_inv N s C h
  obtain ⟨m, hm, hmin⟩ := DSU.minRoot s.parent i (hInv.reach i h1 h2)
  have hmN : m < N := DSU.minRoot_lt s.parent N i m hInv.prange h1 h2 hm hmin
  obtain ⟨hr_eq, _⟩ := DSU.find_master N s hInv.psize hInv.dsize hInv.prange
    hInv.reach hInv.rdiff i h1 h2
  refine ⟨m, hmN, hm, ?_⟩
  rw [hr_eq, DSU.rootD_eq_iter s i m hm (by rw [hInv.psize]; omega)]

/-- **C10.** In every reachable state, every root element carries a stored
offset of zero. -/
theorem c10_root_diff_zero (N : Nat) (s : DSU) (C : List (Nat × Nat × Int))
    (h : DSU.Reach N s C) (r : Nat) (h1 : 1 ≤ r) (h2 : r ≤ N)
    (hroot : DSU.parAt s.parent r = r) : s.diff.getD r 0 = 0 :=
  (DSU.reach_inv N s C h).rdiff r h1 h2 hroot

/-- **C1.** The program prints exactly one line per test case, and for a
valid test case that line is `YES` precisely when some integer assignment
satisfies all its constraints simultaneously, `NO` otherwise. -/
theorem c1_verdict (ts : List (Nat × List (Nat × Nat × Int)))
    (hv : ∀ t ∈ ts, CValid t.1 t.2) :
    (runTests ts).length = ts.length ∧
    ∀ t ∈ ts,
      (solveCase t.1 t.2 = "YES" ↔ ∃ ψ : Nat → Int, SatAll ψ t.2) ∧
      (solveCase t.1 t.2 = "NO" ↔ ¬∃ ψ : Nat → Int, SatAll ψ t.2) := by
  constructor
  · simp [runTests]
  · intro t ht
    have hvt := hv t ht
    have hpm := process_master t.1 t.2 [] (DSU.init t.1) hvt (DSU.inv_init t.1)
    rw [List.nil_append] at hpm
    have hyes : (processList (DSU.init t.1) true t.2).2 = true →
        ∃ ψ : Nat → Int, SatAll ψ t.2 := by
      intro htrue
      obtain ⟨φ, hφS, _⟩ := (hpm.1 htrue).hexist
      exact ⟨φ, hφS⟩
    have hno : (processList (DSU.init t.1) true t.2).2 = false →
        ¬∃ ψ : Nat → Int, SatAll ψ t.2 := by
      intro hfalse ⟨ψ, hψ⟩
      exact hpm.2 hfalse ψ hψ
    have hsolve : solveCase t.1 t.2 =
        if (processList (DSU.init t.1) true t.2).2 = true then "YES" else "NO" := rfl
    rcases hb : (processList (DSU.init t.1) true t.2).2 with _ | _
    · rw [hsolve, hb]
      have hNO : (if (false : Bool) = true then "YES" else "NO") = "NO" := rfl
      rw [hNO]
      have hn := hno hb
      exact ⟨⟨fun hcontra => absurd hcontra (by decide), fun hsat => absurd hsat hn⟩,
        fun _ => hn, fun _ => rfl⟩
    · rw [hsolve, hb]
      have hYES : (if (true : Bool) = true then "YES" else "NO") = "YES" := rfl
      rw [hYES]
      have hy := hyes hb
      exact ⟨⟨fun _ => hy, fun _ => rfl⟩,
        fun hcontra => absurd hcontra (by decide), fun hns => absurd hy hns⟩

/-- **C3.** When the two `find` calls inside `unite(i, j, c)` return
distinct roots `ri` and `rj`, `unite` attaches `ri` beneath `rj`, stores
`c + offj - offi` as the new offset of `ri` (where `offi`, `offj` are the
post-find stored offsets of `i` and `j`), and returns `true`, whatever the
value of `c`. -/
theorem c3_merge_distinct_roots (N : Nat) (s : DSU) (C : List (Nat × Nat × Int))
    (h : DSU.Reach N s C) (i j : Nat) (c : Int)
    (hi1 : 1 ≤ i) (hi2 : i ≤ N) (hj1 : 1 ≤ j) (hj2 : j ≤ N)
    (hne : (DSU.find s i).2 ≠ (DSU.find (DSU.find s i).1 j).2) :
    (DSU.unite s i j c).2 = true ∧
    DSU.parAt (DSU.unite s i j c).1.parent (DSU.find s i).2 =
      (DSU.find (DSU.find s i).1 j).2 ∧
    (DSU.unite s i j c).1.diff.getD (DSU.find s i).2 0 =
      c + (DSU.find (DSU.find s i).1 j).1.diff.getD j 0 -
        (DSU.find (DSU.find s i).1 j).1.diff.getD i 0 := by
  have hInv := DSU.reach_inv N s C h
  have hI1 := DSU.inv_find N C s hInv i hi1 hi2
  have hF1 := DSU.find_master N s hInv.psize hInv.dsize hInv.prange hInv.reach
    hInv.rdiff i hi1 hi2
  rcases hq1 : DSU.find s i with ⟨s1, ri⟩
  rw [hq1] at hI1 hF1 hne
  dsimp only at hF1 hne ⊢
  obtain ⟨hri_val, _⟩ := hF1
  have hI2 := DSU.inv_find N C s1 hI1 j hj1 hj2
  rcases hq2 : DSU.find s1 j with ⟨s2, rj⟩
  rw [hq2] at hI2 hne
  dsimp only at hne ⊢
  have hriS := DSU.rootD_spec s N hInv.psize hInv.prange hInv.reach i hi1 hi2
  have hri2 : ri ≤ N := by rw [hri_val]; exact hriS.2.2
  have hun : DSU.unite s i j c =
      (⟨s2.parent.setD ri rj,
        s2.diff.setD ri (s2.diff.getD j 0 - s2.diff.getD i 0 + c)⟩, true) := by
    simp only [DSU.unite]
    rw [hq1]
    dsimp only
    rw [hq2]
    dsimp only
    rw [if_pos hne]
  rw [hun]
  refine ⟨rfl, ?_, ?_⟩
  · show DSU.parAt (s2.parent.setD ri rj) ri = rj
    unfold DSU.parAt
    exact getD_setD_self _ _ _ _ (by rw [hI2.psize]; omega)
  · show (s2.diff.setD ri (s2.diff.getD j 0 - s2.diff.getD i 0 + c)).getD ri 0 =
      c + s2.diff.getD j 0 - s2.diff.getD i 0
    rw [getD_setD_self _ _ _ _ (by rw [hI2.dsize]; omega)]
    ring

/-- **C4.** When the two `find` calls inside `unite(i, j, c)` return the
same root, `unite` returns `false` exactly when the post-find offsets
satisfy `offi - offj ≠ c`, and on `false` the state is exactly the state
left by the two `find` calls (no further mutation). -/
theorem c4_same_root_contradiction (s : DSU) (i j : Nat) (c : Int)
    (heq : (DSU.find s i).2 = (DSU.find (DSU.find s i).1 j).2) :
    ((DSU.unite s i j c).2 = false ↔
      (DSU.find (DSU.find s i).1 j).1.diff.getD i 0 -
        (DSU.find (DSU.find s i).1 j).1.diff.getD j 0 ≠ c) ∧
    ((DSU.unite s i j c).2 = false →
      (DSU.unite s i j c).1 = (DSU.find (DSU.find s i).1 j).1) := by
  rcases hq1 : DSU.find s i with ⟨s1, ri⟩
  rw [hq1] at heq
  dsimp only at heq ⊢
  rcases hq2 : DSU.find s1 j with ⟨s2, rj⟩
  rw [hq2] at heq
  dsimp only at heq ⊢
  have hun : DSU.unite s i j c =
      (if s2.diff.getD i 0 - s2.diff.getD j 0 ≠ c then (s2, false)
        else (s2, true)) := by
    simp only [DSU.unite]
    rw [hq1]
    dsimp only
    rw [hq2]
    dsimp only
    rw [if_neg (show ¬ri ≠ rj from fun hh => hh heq)]
  rw [hun]
  by_cases hc : s2.diff.getD i 0 - s2.diff.getD j 0 = c
  · rw [if_neg (not_not_intro hc)]
    constructor
    · constructor
      · intro hfalse
        exact absurd hfalse (by simp)
      · intro hne
        exact absurd hc hne
    · intro hfalse
      exact absurd hfalse (by simp)
  · rw [if_pos hc]
    exact ⟨⟨fun _ => hc, fun _ => rfl⟩, fun _ => rfl⟩

/-- **C5.** Once a contradiction is detected within a test case, the
remaining constraints are still consumed but never applied — the state
stays exactly the failure state — and the verdict is `NO` regardless of
what follows. -/
theorem c5_skip_after_contradiction (n : Nat) (cs1 cs2 : List (Nat × Nat × Int))
    (hfail : (processList (DSU.init n) true cs1).2 = false) :
    processList (DSU.init n) true (cs1 ++ cs2) =
      ((processList (DSU.init n) true cs1).1, false) ∧
    solveCase n (cs1 ++ cs2) = "NO" := by
  have happ : processList (DSU.init n) true (cs1 ++ cs2) =
      ((processList (DSU.init n) true cs1).1, false) := by
    have h0 : processList (DSU.init n) true (cs1 ++ cs2) =
        processList (processList (DSU.init n) true cs1).1
          (processList (DSU.init n) true cs1).2 cs2 :=
      processList_append (DSU.init n) true cs1 cs2
    rw [h0, hfail, processList_false]
  refine ⟨happ, ?_⟩
  have hsolve : solveCase n (cs1 ++ cs2) =
      if (processList (DSU.init n) true (cs1 ++ cs2)).2 = true then "YES" else "NO" := rfl
  rw [hsolve, happ]
  rfl

/-- **C6.** `find i` returns the root of `i`'s chain and, for every node
visited strictly before the root, repoints its parent to that root and
rewrites its offset to the pre-call path sum of offsets from that node to
the root (`x_k - x_root`); all other entries are untouched. -/
theorem c6_find_compression (N : Nat) (s : DSU) (C : List (Nat × Nat × Int))
    (h : DSU.Reach N s C) (i : Nat) (h1 : 1 ≤ i) (h2 : i ≤ N) :
    ∃ m, DSU.parAt s.parent (DSU.iterP s.parent m i) = DSU.iterP s.parent m i ∧
      (∀ t, t < m →
        DSU.parAt s.parent (DSU.iterP s.parent t i) ≠ DSU.iterP s.parent t i) ∧
      (DSU.find s i).2 = DSU.iterP s.parent m i ∧
      (∀ t, t < m →
        DSU.parAt (DSU.find s i).1.parent (DSU.iterP s.parent t i) =
          (DSU.find s i).2 ∧
        (DSU.find s i).1.diff.getD (DSU.iterP s.parent t i) 0 =
          DSU.offTo s (m - t) (DSU.iterP s.parent t i)) ∧
      (∀ k, (∀ t, t < m → DSU.iterP s.parent t i ≠ k) →
        (DSU.find s i).1.parent.getD k 0 = s.parent.getD k 0 ∧
        (DSU.find s i).1.diff.getD k 0 = s.diff.getD k 0) := by
  have hInv := DSU.reach_inv N s C h
  obtain ⟨m, hm, hmin⟩ := DSU.minRoot s.parent i (hInv.reach i h1 h2)
  have hmN : m < N := DSU.minRoot_lt s.parent N i m hInv.prange h1 h2 hm hmin
  have hrange := DSU.chain_range s.parent N hInv.prange i h1 h2
  have hsz : ∀ t, t < m → DSU.iterP s.parent t i < s.parent.size ∧
      DSU.iterP s.parent t i < s.diff.size := by
    intro t _
    have := (hrange t).2
    exact ⟨by rw [hInv.psize]; omega, by rw [hInv.dsize]; omega⟩
  have hspec := DSU.findAux_spec s m i s.parent.size hm hmin hsz
    (by rw [hInv.psize]; omega)
  have hfind : DSU.find s i = DSU.findAux s.parent.size s i := rfl
  rw [← hfind] at hspec
  obtain ⟨hA2, _, _, hAframe, hAchain⟩ := hspec
  have hdr : s.diff.getD (DSU.iterP s.parent m i) 0 = 0 :=
    hInv.rdiff _ (hrange m).1 (hrange m).2 hm
  refine ⟨m, hm, hmin, hA2, ?_, hAframe⟩
  intro t ht
  have hch := hAchain t ht
  constructor
  · unfold DSU.parAt
    rw [hch.1, ← hA2]
  · rw [hch.2, hdr]
    ring

/-- **C8.** Repeating `find` on the same element without intervening
unions returns the same root and leaves the state — in particular the
element's stored offset — entirely unchanged. -/
theorem c8_find_idempotent (N : Nat) (s : DSU) (C : List (Nat × Nat × Int))
    (h : DSU.Reach N s C) (i : Nat) (h1 : 1 ≤ i) (h2 : i ≤ N) :
    (DSU.find (DSU.find s i).1 i).2 = (DSU.find s i).2 ∧
    (DSU.find (DSU.find s i).1 i).1 = (DSU.find s i).1 := by
  have hInv := DSU.reach_inv N s C h
  have hI1 := DSU.inv_find N C s hInv i h1 h2
  have hF1 := DSU.find_master N s hInv.psize hInv.dsize hInv.prange hInv.reach
    hInv.rdiff i h1 h2
  rcases hq1 : DSU.find s i with ⟨s1, r⟩
  rw [hq1] at hI1 hF1
  dsimp only at hF1 ⊢
  obtain ⟨hr_val, _, _, _, _, hroots, _, _, _, hcomp, _, _⟩ := hF1
  have hrS := DSU.rootD_spec s N hInv.psize hInv.prange hInv.reach i h1 h2
  have hr1 : 1 ≤ r := by rw [hr_val]; exact hrS.2.1
  have hr2 : r ≤ N := by rw [hr_val]; exact hrS.2.2
  have hroot_s : DSU.parAt s.parent r = r := by rw [hr_val]; exact hrS.1
  have hroot1 : DSU.parAt s1.parent r = r := (hroots r hr1 hr2).2 hroot_s
  have hdr1 : s1.diff.getD r 0 = 0 := hI1.rdiff r hr1 hr2 hroot1
  have hpar1 : DSU.parAt s1.parent i = r := by rw [hr_val]; exact hcomp
  by_cases hir : i = r
  · -- i is already its own root
    obtain ⟨K, hK⟩ : ∃ K, s1.parent.size = K + 1 := ⟨N, hI1.psize⟩
    have hroot1i : DSU.parAt s1.parent i = i := by rw [hir]; exact hroot1
    have hh : DSU.findAux s1.parent.size s1 i = (s1, i) := by
      rw [hK]
      simp only [DSU.findAux, if_pos hroot1i]
    have hfind1 : DSU.find s1 i = (s1, i) := hh
    rw [hfind1]
    exact ⟨hir, rfl⟩
  · obtain ⟨N2, hN2⟩ : ∃ N2, N = N2 + 1 := ⟨N - 1, by omega⟩
    obtain ⟨F, hFdef⟩ : ∃ F, F = N2 + 1 := ⟨N2 + 1, rfl⟩
    have hne1 : DSU.parAt s1.parent i ≠ i := by
      rw [hpar1]
      exact fun hh => hir hh.symm
    have e1 : DSU.findAux F s1 r = (s1, r) := by
      rw [hFdef]
      simp only [DSU.findAux, if_pos hroot1]
    have e2 : DSU.findAux (F + 1) s1 i =
        (⟨s1.parent.setD i r, s1.diff.setD i (s1.diff.getD i 0 + s1.diff.getD r 0)⟩,
          r) := by
      simp only [DSU.findAux, if_neg hne1]
      rw [hpar1, e1]
      dsimp only
      rw [hpar1]
    have hiP : i < s1.parent.size := by rw [hI1.psize]; omega
    have hiD : i < s1.diff.size := by rw [hI1.dsize]; omega
    have hsz1 : s1.parent.size = F + 1 := by rw [hFdef, hI1.psize, hN2]
    have hfind1 : DSU.find s1 i =
        (⟨s1.parent.setD i r, s1.diff.setD i (s1.diff.getD i 0 + s1.diff.getD r 0)⟩,
          r) := by
      show DSU.findAux s1.parent.size s1 i = _
      rw [hsz1, e2]
    rw [hfind1]
    dsimp only
    refine ⟨rfl, ?_⟩
    have hpeq : s1.parent.setD i r = s1.parent := by
      have : r = s1.parent.getD i 0 := hpar1.symm
      rw [this]
      exact setD_getD_self_eq s1.parent i 0 hiP
    have hdeq : s1.diff.setD i (s1.diff.getD i 0 + s1.diff.getD r 0) = s1.diff := by
      rw [hdr1, add_zero]
      exact setD_getD_self_eq s1.diff i 0 hiD
    rw [hpeq, hdeq]

/-- Witness for C1 on the spec's scenarios A and B. -/
theorem c1_verdict_witness :
    solveCase 3 [(1, 2, 5), (2, 3, 3), (1, 3, 8)] = "YES" ∧
    solveCase 3 [(1, 2, 5), (2, 3, 3), (1, 3, 9)] = "NO" := by
  constructor
  · exact ((c1_verdict [(3, [(1, 2, 5), (2, 3, 3), (1, 3, 8)])] (by decide)).2
      (3, [(1, 2, 5), (2, 3, 3), (1, 3, 8)])
      (by simp)).1.mpr ⟨fun k => [0, 8, 3, 0].getD k 0, by decide⟩
  · refine ((c1_verdict [(3, [(1, 2, 5), (2, 3, 3), (1, 3, 9)])] (by decide)).2
      (3, [(1, 2, 5), (2, 3, 3), (1, 3, 9)])
      (by simp)).2.mpr ?_
    rintro ⟨ψ, hψ⟩
    have e1 := hψ (1, 2, 5) (by simp)
    have e2 := hψ (2, 3, 3) (by simp)
    have e3 := hψ (1, 3, 9) (by simp)
    dsimp only at e1 e2 e3
    omega

/-- Witness for C2 on the state reached by uniting `x_1 - x_2 = 5`. -/
theorem c2_offset_invariant_witness :
    DSU.offToRoot (DSU.unite (DSU.init 3) 1 2 5).1 1 =
      (fun k => if k = 1 then (5 : Int) else 0) 1 -
      (fun k => if k = 1 then (5 : Int) else 0)
        (DSU.rootD (DSU.unite (DSU.init 3) 1 2 5).1 1) :=
  c2_offset_invariant 3 (DSU.unite (DSU.init 3) 1 2 5).1 [(1, 2, 5)]
    (DSU.Reach.uniteTrue (DSU.init 3) [] 1 2 5 DSU.Reach.init
      (by decide) (by decide) (by decide) (by decide) (by decide))
    (fun k => if k = 1 then (5 : Int) else 0) (by decide)
    1 (by decide) (by decide)

/-- Witness for C3: uniting two fresh singleton components. -/
theorem c3_merge_distinct_roots_witness :
    (DSU.unite (DSU.init 3) 1 2 5).2 = true ∧
    DSU.parAt (DSU.unite (DSU.init 3) 1 2 5).1.parent (DSU.find (DSU.init 3) 1).2 =
      (DSU.find (DSU.find (DSU.init 3) 1).1 2).2 ∧
    (DSU.unite (DSU.init 3) 1 2 5).1.diff.getD (DSU.find (DSU.init 3) 1).2 0 =
      5 + (DSU.find (DSU.find (DSU.init 3) 1).1 2).1.diff.getD 2 0 -
        (DSU.find (DSU.find (DSU.init 3) 1).1 2).1.diff.getD 1 0 :=
  c3_merge_distinct_roots 3 (DSU.init 3) [] DSU.Reach.init 1 2 5
    (by decide) (by decide) (by decide) (by decide) (by decide)

/-- Witness for C4: re-uniting `1` and `2` with a wrong offset after
`x_1 - x_2 = 5` is already recorded. -/
theorem c4_same_root_contradiction_witness :
    (((DSU.unite (DSU.unite (DSU.init 3) 1 2 5).1 1 2 7).2 = false ↔
      (DSU.find (DSU.find (DSU.unite (DSU.init 3) 1 2 5).1 1).1 2).1.diff.getD 1 0 -
        (DSU.find (DSU.find (DSU.unite (DSU.init 3) 1 2 5).1 1).1 2).1.diff.getD 2 0 ≠
          7) ∧
    ((DSU.unite (DSU.unite (DSU.init 3) 1 2 5).1 1 2 7).2 = false →
      (DSU.unite (DSU.unite (DSU.init 3) 1 2 5).1 1 2 7).1 =
        (DSU.find (DSU.find (DSU.unite (DSU.init 3) 1 2 5).1 1).1 2).1)) :=
  c4_same_root_contradiction (DSU.unite (DSU.init 3) 1 2 5).1 1 2 7 (by decide)

/-- Witness for C5: after the contradictory prefix the tail is ignored and
the verdict is `NO`. -/
theorem c5_skip_after_contradiction_witness :
    processList (DSU.init 3) true ([(1, 2, 5), (1, 2, 6)] ++ [(2, 3, 3)]) =
      ((processList (DSU.init 3) true [(1, 2, 5), (1, 2, 6)]).1, false) ∧
    solveCase 3 ([(1, 2, 5), (1, 2, 6)] ++ [(2, 3, 3)]) = "NO" :=
  c5_skip_after_contradiction 3 [(1, 2, 5), (1, 2, 6)] [(2, 3, 3)] (by decide)

/-- Witness for C6: compressing the two-node chain `1 → 2`. -/
theorem c6_find_compression_witness :
    ∃ m, DSU.parAt (DSU.unite (DSU.init 3) 1 2 5).1.parent
        (DSU.iterP (DSU.unite (DSU.init 3) 1 2 5).1.parent m 1) =
        DSU.iterP (DSU.unite (DSU.init 3) 1 2 5).1.parent m 1 ∧
      (∀ t, t < m →
        DSU.parAt (DSU.unite (DSU.init 3) 1 2 5).1.parent
          (DSU.iterP (DSU.unite (DSU.init 3) 1 2 5).1.parent t 1) ≠
          DSU.iterP (DSU.unite (DSU.init 3) 1 2 5).1.parent t 1) ∧
      (DSU.find (DSU.unite (DSU.init 3) 1 2 5).1 1).2 =
        DSU.iterP (DSU.unite (DSU.init 3) 1 2 5).1.parent m 1 ∧
      (∀ t, t < m →
        DSU.parAt (DSU.find (DSU.unite (DSU.init 3) 1 2 5).1 1).1.parent
          (DSU.iterP (DSU.unite (DSU.init 3) 1 2 5).1.parent t 1) =
          (DSU.find (DSU.unite (DSU.init 3) 1 2 5).1 1).2 ∧
        (DSU.find (DSU.unite (DSU.init 3) 1 2 5).1 1).1.diff.getD
          (DSU.iterP (DSU.unite (DSU.init 3) 1 2 5).1.parent t 1) 0 =
          DSU.offTo (DSU.unite (DSU.init 3) 1 2 5).1 (m - t)
            (DSU.iterP (DSU.unite (DSU.init 3) 1 2 5).1.parent t 1)) ∧
      (∀ k, (∀ t, t < m → DSU.iterP (DSU.unite (DSU.init 3) 1 2 5).1.parent t 1 ≠ k) →
        (DSU.find (DSU.unite (DSU.init 3) 1 2 5).1 1).1.parent.getD k 0 =
          (DSU.unite (DSU.init 3) 1 2 5).1.parent.getD k 0 ∧
        (DSU.find (DSU.unite (DSU.init 3) 1 2 5).1 1).1.diff.getD k 0 =
          (DSU.unite (DSU.init 3) 1 2 5).1.diff.getD k 0) :=
  c6_find_compression 3 (DSU.unite (DSU.init 3) 1 2 5).1 [(1, 2, 5)]
    (DSU.Reach.uniteTrue (DSU.init 3) [] 1 2 5 DSU.Reach.init
      (by decide) (by decide) (by decide) (by decide) (by decide))
    1 (by decide) (by decide)

/-- Witness for C8: repeating `find 1` after a union. -/
theorem c8_find_idempotent_witness :
    (DSU.find (DSU.find (DSU.unite (DSU.init 3) 1 2 5).1 1).1 1).2 =
      (DSU.find (DSU.unite (DSU.init 3) 1 2 5).1 1).2 ∧
    (DSU.find (DSU.find (DSU.unite (DSU.init 3) 1 2 5).1 1).1 1).1 =
      (DSU.find (DSU.unite (DSU.init 3) 1 2 5).1 1).1 :=
  c8_find_idempotent 3 (DSU.unite (DSU.init 3) 1 2 5).1 [(1, 2, 5)]
    (DSU.Reach.uniteTrue (DSU.init 3) [] 1 2 5 DSU.Reach.init
      (by decide) (by decide) (by decide) (by decide) (by decide))
    1 (by decide) (by decide)

/-- Witness for C9 on the two-node chain created by one union. -/
theorem c9_find_terminates_forest_witness :
    ∃ m, m < 3 ∧
      DSU.parAt (DSU.unite (DSU.init 3) 1 2 5).1.parent
        (DSU.iterP (DSU.unite (DSU.init 3) 1 2 5).1.parent m 1) =
        DSU.iterP (DSU.unite (DSU.init 3) 1 2 5).1.parent m 1 ∧
      (DSU.find (DSU.unite (DSU.init 3) 1 2 5).1 1).2 =
        DSU.iterP (DSU.unite (DSU.init 3) 1 2 5).1.parent m 1 :=
  c9_find_terminates_forest 3 (DSU.unite (DSU.init 3) 1 2 5).1 [(1, 2, 5)]
    (DSU.Reach.uniteTrue (DSU.init 3) [] 1 2 5 DSU.Reach.init
      (by decide) (by decide) (by decide) (by decide) (by decide))
    1 (by decide) (by decide)

/-- Witness for C10: node `2` is the root of the merged component and its
stored offset is zero. -/
theorem c10_root_diff_zero_witness :
    (DSU.unite (DSU.init 3) 1 2 5).1.diff.getD 2 0 = 0 :=
  c10_root_diff_zero 3 (DSU.unite (DSU.init 3) 1 2 5).1 [(1, 2, 5)]
    (DSU.Reach.uniteTrue (DSU.init 3) [] 1 2 5 DSU.Reach.init
      (by decide) (by decide) (by decide) (by decide) (by decide))
    2 (by decide) (by decide) (by decide)

/-! ### 64-bit wraparound model (claim C7)

`diff` is a `vector<long long>` in the source: every arithmetic result is
reduced into the signed 64-bit range by two's-complement wraparound.  The
model below wraps at every arithmetic step of `find` and `unite`, exactly
where the C++ `long long` operations occur, and is proved to coincide with
the exact-integer model whenever the total constraint magnitude fits. -/

/-- Two's-complement reduction into `[-2^63, 2^63)`. -/
def wrap64 (z : Int) : Int := (z + 2 ^ 63) % 2 ^ 64 - 2 ^ 63

theorem wrap64_eq_self (z : Int) (h1 : -2 ^ 63 ≤ z) (h2 : z < 2 ^ 63) :
    wrap64 z = z := by
  unfold wrap64
  have h0 : (0 : Int) ≤ z + 2 ^ 63 := by omega
  have h3 : z + 2 ^ 63 < 2 ^ 64 := by
    have : (2 : Int) ^ 64 = 2 ^ 63 + 2 ^ 63 := by norm_num
    omega
  rw [Int.emod_eq_of_lt h0 h3]
  omega

namespace DSU

/-- `findAux` with the `diff[i] += diff[parent[i]]` addition performed in
64-bit two's-complement arithmetic. -/
def findAux64 : Nat → DSU → Nat → DSU × Nat
  | 0, s, i => (s, i)
  | fuel + 1, s, i =>
    if parAt s.parent i = i then (s, i)
    else
      let res := findAux64 fuel s (parAt s.parent i)
      let s1 := res.1
      let d := wrap64 (s1.diff.getD i 0 + s1.diff.getD (parAt s1.parent i) 0)
      (⟨s1.parent.setD i res.2, s1.diff.setD i d⟩, res.2)

def find64 (s : DSU) (i : Nat) : DSU × Nat :=
  findAux64 s.parent.size s i

/-- `unite` with `diff[j] - diff[i] + c` and the comparison
`diff[i] - diff[j] != c` performed in 64-bit two's-complement
arithmetic (first the subtraction, then the addition, as in C++). -/
def unite64 (s : DSU) (i j : Nat) (c : Int) : DSU × Bool :=
  let r1 := find64 s i
  let r2 := find64 r1.1 j
  let s2 := r2.1
  if r1.2 ≠ r2.2 then
    (⟨s2.parent.setD r1.2 r2.2,
      s2.diff.setD r1.2
        (wrap64 (wrap64 (s2.diff.getD j 0 - s2.diff.getD i 0) + c))⟩, true)
  else
    if wrap64 (s2.diff.getD i 0 - s2.diff.getD j 0) ≠ c then (s2, false)
    else (s2, true)

end DSU

/-- The driver loop over the 64-bit model. -/
def processList64 : DSU → Bool → List (Nat × Nat × Int) → DSU × Bool
  | s, consistent, [] => (s, consistent)
  | s, consistent, t :: rest =>
    if consistent then
      let r := DSU.unite64 s t.1 t.2.1 t.2.2
      processList64 r.1 r.2 rest
    else
      processList64 s consistent rest


/-- Two distinct components' weights never exceed the total weight. -/
theorem compWeight_pair_le_total (s : DSU) (C : List (Nat × Nat × Int))
    (r1 r2 : Nat) (hne : r1 ≠ r2) :
    DSU.compWeight s C r1 + DSU.compWeight s C r2 ≤ DSU.totalWeight C := by
  unfold DSU.compWeight DSU.totalWeight
  induction C with
  | nil => simp
  | cons t rest ih =>
    simp only [List.map_cons, List.sum_cons]
    have habs := abs_nonneg t.2.2
    by_cases h1 : DSU.rootD s t.1 = r1
    · rw [if_pos h1, if_neg (by rw [h1]; exact hne)]
      omega
    · rw [if_neg h1]
      by_cases h2 : DSU.rootD s t.1 = r2
      · rw [if_pos h2]
        omega
      · rw [if_neg h2]
        omega

namespace DSU

/-- In every invariant state, the full path sum of any valid node is
bounded by its component's constraint weight. -/
theorem offToRoot_bound (N : Nat) (C : List (Nat × Nat × Int)) (s : DSU)
    (hInv : Inv N C s) (x : Nat) (hx1 : 1 ≤ x) (hx2 : x ≤ N) :
    |offToRoot s x| ≤ compWeight s C (rootD s x) := by
  have hrS := rootD_spec s N hInv.psize hInv.prange hInv.reach x hx1 hx2
  have hzero : offToRoot s (rootD s x) = 0 := offToRoot_root s _ hrS.1
  have hroot2 : rootD s (rootD s x) = rootD s x := rootD_of_root s _ hrS.1
  have hb := hInv.bound x (rootD s x) hx1 hx2 hrS.2.1 hrS.2.2 hroot2.symm
  rwa [hzero, sub_zero] at hb

/-- In every invariant state, every stored `diff` entry of a valid node is
bounded by its component's constraint weight. -/
theorem diff_le_compWeight (N : Nat) (C : List (Nat × Nat × Int)) (s : DSU)
    (hInv : Inv N C s) (x : Nat) (hx1 : 1 ≤ x) (hx2 : x ≤ N) :
    |s.diff.getD x 0| ≤ compWeight s C (rootD s x) := by
  by_cases hroot : parAt s.parent x = x
  · rw [hInv.rdiff x hx1 hx2 hroot]
    simpa using compWeight_nonneg s C (rootD s x)
  · obtain ⟨φ, hφS, hφE⟩ := hInv.hexist
    have hy1 : 1 ≤ parAt s.parent x := (hInv.prange x hx1 hx2).1
    have hy2 : parAt s.parent x ≤ N := (hInv.prange x hx1 hx2).2
    have hd : s.diff.getD x 0 = φ x - φ (parAt s.parent x) := hφE x hx1 hx2 hroot
    have hry : rootD s (parAt s.parent x) = rootD s x := by
      have := rootD_iter s N hInv.psize hInv.prange hInv.reach x hx1 hx2 1
      simpa [iterP] using this
    have hox : offToRoot s x = φ x - φ (rootD s x) :=
      offToRoot_eq_phi N s hInv.psize hInv.prange hInv.reach φ hφE x hx1 hx2
    have hoy : offToRoot s (parAt s.parent x) = φ (parAt s.parent x) - φ (rootD s x) := by
      have := offToRoot_eq_phi N s hInv.psize hInv.prange hInv.reach φ hφE
        (parAt s.parent x) hy1 hy2
      rwa [hry] at this
    have hb := hInv.bound x (parAt s.parent x) hx1 hx2 hy1 hy2 hry.symm
    rw [hox, hoy] at hb
    have he : (φ x - φ (rootD s x)) - (φ (parAt s.parent x) - φ (rootD s x)) =
        φ x - φ (parAt s.parent x) := by ring
    rw [he, ← hd] at hb
    exact hb

/-- Every stored `diff` entry of a valid node is bounded by the total
constraint weight. -/
theorem diff_le_total (N : Nat) (C : List (Nat × Nat × Int)) (s : DSU)
    (hInv : Inv N C s) (x : Nat) (hx1 : 1 ≤ x) (hx2 : x ≤ N) :
    |s.diff.getD x 0| ≤ totalWeight C := by
  have h1 := diff_le_compWeight N C s hInv x hx1 hx2
  have h2 := compWeight_le_total s C (rootD s x)
  linarith

/-- The 64-bit `findAux` computes exactly the ideal `findAux` provided
every rewritten offset (a path sum to the root, plus the root's diff)
fits in the signed 64-bit range. -/
theorem findAux64_eq (s : DSU) :
    ∀ (m i fuel : Nat),
    parAt s.parent (iterP s.parent m i) = iterP s.parent m i →
    (∀ t, t < m → parAt s.parent (iterP s.parent t i) ≠ iterP s.parent t i) →
    (∀ t, t < m → iterP s.parent t i < s.parent.size ∧ iterP s.parent t i < s.diff.size) →
    (∀ t, t < m → |offTo s (m - t) (iterP s.parent t i) +
        s.diff.getD (iterP s.parent m i) 0| < 2 ^ 63) →
    m < fuel →
    findAux64 fuel s i = findAux fuel s i := by
  intro m
  induction m with
  | zero =>
    intro i fuel hm hmin hsz hvb hfuel
    obtain ⟨f, rfl⟩ : ∃ f, fuel = f + 1 := ⟨fuel - 1, by omega⟩
    have hroot : parAt s.parent i = i := hm
    simp only [findAux64, findAux, if_pos hroot]
  | succ m ih =>
    intro i fuel hm hmin hsz hvb hfuel
    obtain ⟨f, rfl⟩ : ∃ f, fuel = f + 1 := ⟨fuel - 1, by omega⟩
    have hroot : parAt s.parent i ≠ i := hmin 0 (by omega)
    have hm' : parAt s.parent (iterP s.parent m (parAt s.parent i)) =
        iterP s.parent m (parAt s.parent i) := by
      rw [← iterP_succ]; exact hm
    have hmin' : ∀ t, t < m →
        parAt s.parent (iterP s.parent t (parAt s.parent i)) ≠
          iterP s.parent t (parAt s.parent i) := by
      intro t ht
      rw [← iterP_succ]; exact hmin (t + 1) (by omega)
    have hsz' : ∀ t, t < m →
        iterP s.parent t (parAt s.parent i) < s.parent.size ∧
          iterP s.parent t (parAt s.parent i) < s.diff.size := by
      intro t ht
      rw [← iterP_succ]; exact hsz (t + 1) (by omega)
    have hvb' : ∀ t, t < m →
        |offTo s (m - t) (iterP s.parent t (parAt s.parent i)) +
          s.diff.getD (iterP s.parent m (parAt s.parent i)) 0| < 2 ^ 63 := by
      intro t ht
      have := hvb (t + 1) (by omega)
      rw [show m + 1 - (t + 1) = m - t by omega, iterP_succ, iterP_succ] at this
      exact this
    have hrec : findAux64 f s (parAt s.parent i) = findAux f s (parAt s.parent i) :=
      ih (parAt s.parent i) f hm' hmin' hsz' hvb' (by omega)
    have hspec := findAux_spec s m (parAt s.parent i) f hm' hmin' hsz' (by omega)
    rcases hq : findAux f s (parAt s.parent i) with ⟨s1, r⟩
    rw [hq] at hspec
    dsimp only at hspec
    obtain ⟨hA2, hApsz, hAdsz, hAframe, hAchain⟩ := hspec
    have hnotin : ∀ t, t < m → iterP s.parent t (parAt s.parent i) ≠ i := by
      intro t ht heq
      have := chain_inj s.parent (m + 1) i hm hmin 0 (t + 1) (by omega) (by omega)
      exact this (by rw [iterP_succ]; exact heq.symm)
    have hfrI := hAframe i hnotin
    have hdP : s1.diff.getD (parAt s.parent i) 0 =
        offTo s m (parAt s.parent i) +
          s.diff.getD (iterP s.parent m (parAt s.parent i)) 0 := by
      cases m with
      | zero =>
        have := (hAframe (parAt s.parent i) (fun t ht => absurd ht (by omega))).2
        simp only [iterP, offTo]
        rw [this]; ring
      | succ m' =>
        have := (hAchain 0 (by omega)).2
        simpa [iterP] using this
    simp only [findAux64, findAux, if_neg hroot]
    rw [hrec, hq]
    dsimp only
    have hpI : parAt s1.parent i = parAt s.parent i := hfrI.1
    have he : s1.diff.getD i 0 + s1.diff.getD (parAt s1.parent i) 0 =
        offTo s (m + 1) i + s.diff.getD (iterP s.parent (m + 1) i) 0 := by
      rw [hpI, hfrI.2, hdP, offTo_succ, if_neg hroot, iterP_succ]
      ring
    have hv0 := hvb 0 (by omega)
    rw [show m + 1 - 0 = m + 1 by omega] at hv0
    have hv0' : |offTo s (m + 1) i + s.diff.getD (iterP s.parent (m + 1) i) 0| < 2 ^ 63 :=
      hv0
    have habs := abs_lt.1 hv0'
    have hwrap : wrap64 (s1.diff.getD i 0 + s1.diff.getD (parAt s1.parent i) 0) =
        s1.diff.getD i 0 + s1.diff.getD (parAt s1.parent i) 0 := by
      apply wrap64_eq_self
      · rw [he]; linarith [habs.1]
      · rw [he]; exact habs.2
    rw [hwrap]

/-- On an invariant state whose total constraint weight fits below `2^63`,
the 64-bit `find` coincides with the exact one. -/
theorem find64_eq (N : Nat) (C : List (Nat × Nat × Int)) (s : DSU)
    (hInv : Inv N C s) (htw : totalWeight C < 2 ^ 63)
    (i : Nat) (h1 : 1 ≤ i) (h2 : i ≤ N) :
    find64 s i = find s i := by
  obtain ⟨m, hm, hmin⟩ := minRoot s.parent i (hInv.reach i h1 h2)
  have hmN : m < N := minRoot_lt s.parent N i m hInv.prange h1 h2 hm hmin
  have hrange := chain_range s.parent N hInv.prange i h1 h2
  have hsz : ∀ t, t < m → iterP s.parent t i < s.parent.size ∧
      iterP s.parent t i < s.diff.size := by
    intro t _
    have := (hrange t).2
    exact ⟨by rw [hInv.psize]; omega, by rw [hInv.dsize]; omega⟩
  have hdr : s.diff.getD (iterP s.parent m i) 0 = 0 :=
    hInv.rdiff _ (hrange m).1 (hrange m).2 hm
  have hvb : ∀ t, t < m → |offTo s (m - t) (iterP s.parent t i) +
      s.diff.getD (iterP s.parent m i) 0| < 2 ^ 63 := by
    intro t ht
    rw [hdr, add_zero]
    have hroott : parAt s.parent (iterP s.parent (m - t) (iterP s.parent t i)) =
        iterP s.parent (m - t) (iterP s.parent t i) := by
      rw [← iterP_add, show t + (m - t) = m by omega]
      exact hm
    have hstab : offTo s s.parent.size (iterP s.parent t i) =
        offTo s (m - t) (iterP s.parent t i) :=
      offTo_stable s (m - t) (iterP s.parent t i) hroott s.parent.size
        (by rw [hInv.psize]; omega)
    have hbd := offToRoot_bound N C s hInv (iterP s.parent t i)
      (hrange t).1 (hrange t).2
    have hle := compWeight_le_total s C (rootD s (iterP s.parent t i))
    unfold offToRoot at hbd
    rw [hstab] at hbd
    calc |offTo s (m - t) (iterP s.parent t i)| ≤ _ := hbd
      _ ≤ totalWeight C := hle
      _ < 2 ^ 63 := htw
  have := findAux64_eq s m i s.parent.size hm hmin hsz hvb (by rw [hInv.psize]; omega)
  exact this

/-- On an invariant state, when the accumulated weight plus the incoming
constraint's magnitude fits below `2^63`, the 64-bit `unite` coincides
with the exact one: none of its `long long` operations wraps. -/
theorem unite64_eq (N : Nat) (C : List (Nat × Nat × Int)) (s : DSU)
    (hInv : Inv N C s) (i j : Nat) (c : Int)
    (hi1 : 1 ≤ i) (hi2 : i ≤ N) (hj1 : 1 ≤ j) (hj2 : j ≤ N)
    (htw : totalWeight C + |c| < 2 ^ 63) :
    unite64 s i j c = unite s i j c := by
  have htwC : totalWeight C < 2 ^ 63 := by
    have := abs_nonneg c
    linarith
  have hF1 := find_master N s hInv.psize hInv.dsize hInv.prange hInv.reach
    hInv.rdiff i hi1 hi2
  have hI1 := inv_find N C s hInv i hi1 hi2
  have h64i := find64_eq N C s hInv htwC i hi1 hi2
  rcases hq1 : find s i with ⟨s1, ri⟩
  rw [hq1] at hF1 hI1 h64i
  dsimp only at hF1
  obtain ⟨hri_val, _, _, _, _, _, hrootD1, _, _, hcomp1, hstab1, _⟩ := hF1
  have hF2 := find_master N s1 hI1.psize hI1.dsize hI1.prange hI1.reach
    hI1.rdiff j hj1 hj2
  have hI2 := inv_find N C s1 hI1 j hj1 hj2
  have h64j := find64_eq N C s1 hI1 htwC j hj1 hj2
  rcases hq2 : find s1 j with ⟨s2, rj⟩
  rw [hq2] at hF2 hI2 h64j
  dsimp only at hF2
  obtain ⟨hrj_val, _, _, _, _, _, hrootD2, _, _, hcomp2, hstab2, _⟩ := hF2
  have hriS := rootD_spec s N hInv.psize hInv.prange hInv.reach i hi1 hi2
  have hri1 : 1 ≤ ri := by rw [hri_val]; exact hriS.2.1
  have hri2 : ri ≤ N := by rw [hri_val]; exact hriS.2.2
  have hrjS := rootD_spec s1 N hI1.psize hI1.prange hI1.reach j hj1 hj2
  have hrj1 : 1 ≤ rj := by rw [hrj_val]; exact hrjS.2.1
  have hrj2 : rj ≤ N := by rw [hrj_val]; exact hrjS.2.2
  have hriroot_s : parAt s.parent ri = ri := by rw [hri_val]; exact hriS.1
  have hri_rootD_s : rootD s ri = ri := rootD_of_root s ri hriroot_s
  have hriroot1 : parAt s1.parent ri = ri := by
    have := hstab1 ri hri1 hri2 (by rw [hri_rootD_s]; exact hriroot_s)
    rw [hri_rootD_s] at this
    exact this
  have hri_rootD1 : rootD s1 ri = ri := rootD_of_root s1 ri hriroot1
  have hriroot2 : parAt s2.parent ri = ri := by
    have := hstab2 ri hri1 hri2 (by rw [hri_rootD1]; exact hriroot1)
    rw [hri_rootD1] at this
    exact this
  have hrjroot1 : parAt s1.parent rj = rj := by rw [hrj_val]; exact hrjS.1
  have hrj_rootD1 : rootD s1 rj = rj := rootD_of_root s1 rj hrjroot1
  have hrjroot2 : parAt s2.parent rj = rj := by
    have := hstab2 rj hrj1 hrj2 (by rw [hrj_rootD1]; exact hrjroot1)
    rw [hrj_rootD1] at this
    exact this
  have hcomp_i1 : parAt s1.parent i = ri := by rw [hri_val]; exact hcomp1
  have hcomp_i2 : parAt s2.parent i = ri := by
    have hh : rootD s1 i = ri := by rw [hrootD1 i hi1 hi2, ← hri_val]
    have := hstab2 i hi1 hi2 (by rw [hh]; exact hcomp_i1)
    rw [hh] at this
    exact this
  have hcomp_j2 : parAt s2.parent j = rj := by rw [hrj_val]; exact hcomp2
  have hrootD_s2_i : rootD s2 i = ri := by
    rw [hrootD2 i hi1 hi2, hrootD1 i hi1 hi2, ← hri_val]
  have hrootD_s2_j : rootD s2 j = rj := by rw [hrootD2 j hj1 hj2, ← hrj_val]
  have hdi : ∀ ψ, EdgeOK N s2 ψ → s2.diff.getD i 0 = ψ i - ψ ri := by
    intro ψ hE
    by_cases hii : i = ri
    · rw [← hii] at hriroot2 ⊢
      rw [hI2.rdiff i hi1 hi2 hriroot2]
      ring
    · have := hE i hi1 hi2 (by rw [hcomp_i2]; exact fun h => hii h.symm)
      rw [hcomp_i2] at this
      exact this
  have hdj : ∀ ψ, EdgeOK N s2 ψ → s2.diff.getD j 0 = ψ j - ψ rj := by
    intro ψ hE
    by_cases hjj : j = rj
    · rw [← hjj] at hrjroot2 ⊢
      rw [hI2.rdiff j hj1 hj2 hrjroot2]
      ring
    · have := hE j hj1 hj2 (by rw [hcomp_j2]; exact fun h => hjj h.symm)
      rw [hcomp_j2] at this
      exact this
  -- stored post-find diffs are component-bounded
  have hdib : |s2.diff.getD i 0| ≤ compWeight s2 C ri := by
    have := diff_le_compWeight N C s2 hI2 i hi1 hi2
    rwa [hrootD_s2_i] at this
  have hdjb : |s2.diff.getD j 0| ≤ compWeight s2 C rj := by
    have := diff_le_compWeight N C s2 hI2 j hj1 hj2
    rwa [hrootD_s2_j] at this
  have hun : unite s i j c =
      (if ri ≠ rj then
        (⟨s2.parent.setD ri rj,
          s2.diff.setD ri (s2.diff.getD j 0 - s2.diff.getD i 0 + c)⟩, true)
      else if s2.diff.getD i 0 - s2.diff.getD j 0 ≠ c then (s2, false)
        else (s2, true)) := by
    simp only [unite]
    rw [hq1]
    dsimp only
    rw [hq2]
  have hun64 : unite64 s i j c =
      (if ri ≠ rj then
        (⟨s2.parent.setD ri rj,
          s2.diff.setD ri
            (wrap64 (wrap64 (s2.diff.getD j 0 - s2.diff.getD i 0) + c))⟩, true)
      else if wrap64 (s2.diff.getD i 0 - s2.diff.getD j 0) ≠ c then (s2, false)
        else (s2, true)) := by
    simp only [unite64]
    rw [h64i]
    dsimp only
    rw [h64j]
  rw [hun, hun64]
  by_cases hrirj : ri = rj
  · -- same root: only the comparison is computed; it does not wrap
    rw [if_neg (show ¬ri ≠ rj from fun h => h hrirj), if_neg (show ¬ri ≠ rj from fun h => h hrirj)]
    obtain ⟨φ, hφS, hφE⟩ := hI2.hexist
    have h1 := hdi φ hφE
    have h2 := hdj φ hφE
    have hoi : offToRoot s2 i = φ i - φ ri := by
      have := offToRoot_eq_phi N s2 hI2.psize hI2.prange hI2.reach φ hφE i hi1 hi2
      rwa [hrootD_s2_i] at this
    have hoj : offToRoot s2 j = φ j - φ rj := by
      have := offToRoot_eq_phi N s2 hI2.psize hI2.prange hI2.reach φ hφE j hj1 hj2
      rwa [hrootD_s2_j] at this
    have hbij := hI2.bound i j hi1 hi2 hj1 hj2 (by rw [hrootD_s2_i, hrootD_s2_j, hrirj])
    rw [hoi, hoj, hrootD_s2_i] at hbij
    have hval : s2.diff.getD i 0 - s2.diff.getD j 0 =
        (φ i - φ ri) - (φ j - φ rj) := by
      rw [h1, h2]
    have habs : |s2.diff.getD i 0 - s2.diff.getD j 0| ≤ compWeight s2 C ri := by
      rw [hval]
      exact hbij
    have hW := compWeight_le_total s2 C ri
    have hlt : |s2.diff.getD i 0 - s2.diff.getD j 0| < 2 ^ 63 := by linarith
    have habslt := abs_lt.1 hlt
    rw [wrap64_eq_self _ (by linarith [habslt.1]) habslt.2]
  · -- distinct roots: the subtraction and the addition both stay in range
    rw [if_pos (show ri ≠ rj from hrirj), if_pos (show ri ≠ rj from hrirj)]
    have hWW := compWeight_pair_le_total s2 C ri rj hrirj
    have hsub : |s2.diff.getD j 0 - s2.diff.getD i 0| ≤ totalWeight C := by
      have := abs_sub (s2.diff.getD j 0) (s2.diff.getD i 0)
      linarith [hdib, hdjb]
    have hsublt := abs_lt.1 (show |s2.diff.getD j 0 - s2.diff.getD i 0| < 2 ^ 63 by
      linarith)
    rw [wrap64_eq_self _ (by linarith [hsublt.1]) hsublt.2]
    have hadd : |s2.diff.getD j 0 - s2.diff.getD i 0 + c| ≤ totalWeight C + |c| := by
      have h3 := abs_add (s2.diff.getD j 0 - s2.diff.getD i 0) c
      linarith
    have haddlt := abs_lt.1 (show |s2.diff.getD j 0 - s2.diff.getD i 0 + c| < 2 ^ 63 by
      linarith)
    rw [wrap64_eq_self _ (by linarith [haddlt.1]) haddlt.2]

end DSU

theorem processList64_false (cs : List (Nat × Nat × Int)) (s : DSU) :
    processList64 s false cs = (s, false) := by
  induction cs with
  | nil => rfl
  | cons t rest ih => simpa [processList64] using ih

theorem totalWeight_append (C1 C2 : List (Nat × Nat × Int)) :
    DSU.totalWeight (C1 ++ C2) = DSU.totalWeight C1 + DSU.totalWeight C2 := by
  unfold DSU.totalWeight
  rw [List.map_append, List.sum_append]

theorem totalWeight_cons (t : Nat × Nat × Int) (C : List (Nat × Nat × Int)) :
    DSU.totalWeight (t :: C) = |t.2.2| + DSU.totalWeight C := by
  unfold DSU.totalWeight
  rw [List.map_cons, List.sum_cons]

/-- The 64-bit driver tracks the exact driver step by step, and the final
state satisfies the invariant for some processed list of no greater
weight. -/
theorem process64_master (N : Nat) :
    ∀ (cs C0 : List (Nat × Nat × Int)) (s : DSU),
    CValid N cs → DSU.Inv N C0 s →
    DSU.totalWeight (C0 ++ cs) < 2 ^ 63 →
    processList64 s true cs = processList s true cs ∧
    ∃ C1, DSU.totalWeight C1 ≤ DSU.totalWeight (C0 ++ cs) ∧
      DSU.Inv N C1 (processList s true cs).1 := by
  intro cs
  induction cs with
  | nil =>
    intro C0 s _ hInv _
    refine ⟨rfl, C0, ?_, hInv⟩
    rw [List.append_nil]
  | cons t rest ih =>
    intro C0 s hv hInv htw
    have hvt := hv t (by simp)
    have hvrest : CValid N rest := fun u hu => hv u (by simp [hu])
    have hwsplit : DSU.totalWeight (C0 ++ t :: rest) =
        DSU.totalWeight C0 + |t.2.2| + DSU.totalWeight rest := by
      rw [totalWeight_append, totalWeight_cons]
      ring
    have hrest_nn := DSU.totalWeight_nonneg rest
    have htw_head : DSU.totalWeight C0 + |t.2.2| < 2 ^ 63 := by
      rw [hwsplit] at htw
      linarith
    have hu_eq : DSU.unite64 s t.1 t.2.1 t.2.2 = DSU.unite s t.1 t.2.1 t.2.2 :=
      DSU.unite64_eq N C0 s hInv t.1 t.2.1 t.2.2
        hvt.1 hvt.2.1 hvt.2.2.1 hvt.2.2.2 htw_head
    have hstep64 : processList64 s true (t :: rest) =
        processList64 (DSU.unite s t.1 t.2.1 t.2.2).1
          (DSU.unite s t.1 t.2.1 t.2.2).2 rest := by
      simp only [processList64]
      rw [hu_eq]
      simp
    have hstep : processList s true (t :: rest) =
        processList (DSU.unite s t.1 t.2.1 t.2.2).1
          (DSU.unite s t.1 t.2.1 t.2.2).2 rest := by
      simp [processList]
    have hum := DSU.unite_master N C0 s hInv t.1 t.2.1 t.2.2
      hvt.1 hvt.2.1 hvt.2.2.1 hvt.2.2.2
    rcases hu : DSU.unite s t.1 t.2.1 t.2.2 with ⟨s1, b⟩
    rw [hu] at hstep64 hstep hum
    dsimp only at hstep64 hstep hum
    have hte : ((t.1, t.2.1, t.2.2) : Nat × Nat × Int) = t := rfl
    cases b with
    | true =>
      have hInv1 : DSU.Inv N (C0 ++ [t]) s1 := by
        have := hum.1 rfl
        rwa [hte] at this
      have htw1 : DSU.totalWeight ((C0 ++ [t]) ++ rest) < 2 ^ 63 := by
        rw [List.append_assoc, List.singleton_append]
        exact htw
      have hih := ih (C0 ++ [t]) s1 hvrest hInv1 htw1
      rw [hstep64, hstep]
      refine ⟨hih.1, ?_⟩
      obtain ⟨C1, hw1, hI1⟩ := hih.2
      refine ⟨C1, ?_, hI1⟩
      rwa [List.append_assoc, List.singleton_append] at hw1
    | false =>
      have hInv1 : DSU.Inv N C0 s1 := by
        have := hum.2 rfl
        exact this.1
      rw [hstep64, hstep, processList_false, processList64_false]
      refine ⟨rfl, C0, ?_, hInv1⟩
      rw [hwsplit]
      have := abs_nonneg t.2.2
      linarith

/-- **C7.** Offsets are held in 64-bit signed storage (`vector<long long>`)
and every arithmetic step of `find` and `unite` combines them in 64-bit
signed arithmetic.  Provided that width can hold the sum of the constraint
magnitudes of the test case (`totalWeight cs < 2^63`), no silent
wraparound occurs: the driver run under two's-complement 64-bit semantics
coincides, state for state, with the exact-integer run, and at every step
of the run all stored offsets stay bounded by that sum. -/
theorem c7_offsets_64bit (n : Nat) (cs : List (Nat × Nat × Int))
    (hv : CValid n cs) (hbound : DSU.totalWeight cs < 2 ^ 63) :
    ∀ pre rest, cs = pre ++ rest →
      processList64 (DSU.init n) true pre = processList (DSU.init n) true pre ∧
      ∀ x, 1 ≤ x → x ≤ n →
        |(processList (DSU.init n) true pre).1.diff.getD x 0| ≤
          DSU.totalWeight cs := by
  intro pre rest hsplit
  have hvpre : CValid n pre := by
    intro u hu
    apply hv u
    rw [hsplit]
    exact List.mem_append.2 (Or.inl hu)
  have hwpre : DSU.totalWeight pre ≤ DSU.totalWeight cs := by
    rw [hsplit, totalWeight_append]
    have := DSU.totalWeight_nonneg rest
    linarith
  have hpm := process64_master n pre [] (DSU.init n) hvpre (DSU.inv_init n)
    (by rw [List.nil_append]; linarith)
  refine ⟨hpm.1, ?_⟩
  intro x hx1 hx2
  obtain ⟨C1, hw1, hI1⟩ := hpm.2
  rw [List.nil_append] at hw1
  have hd := DSU.diff_le_total n C1 (processList (DSU.init n) true pre).1 hI1 x hx1 hx2
  linarith

/-- Witness for C7 on a test case with a mid-run contradiction. -/
theorem c7_offsets_64bit_witness :
    processList64 (DSU.init 3) true [(1, 2, 5), (2, 3, 3)] =
      processList (DSU.init 3) true [(1, 2, 5), (2, 3, 3)] ∧
    ∀ x, 1 ≤ x → x ≤ 3 →
      |(processList (DSU.init 3) true [(1, 2, 5), (2, 3, 3)]).1.diff.getD x 0| ≤
        DSU.totalWeight [(1, 2, 5), (2, 3, 3), (1, 3, 9)] :=
  c7_offsets_64bit 3 [(1, 2, 5), (2, 3, 3), (1, 3, 9)] (by decide) (by decide)
    [(1, 2, 5), (2, 3, 3)] [(1, 3, 9)] rfl

example : solveCase 3 [(1, 2, 5), (2, 3, 3), (1, 3, 8)] = "YES" := by decide

example : solveCase 3 [(1, 2, 5), (2, 3, 3), (1, 3, 9)] = "NO" := by decide

example : solveCase 4 [(1, 2, 0)] = "YES" := by decide
